import Mathlib

/-!
# Radix sort on strings: a Lean model of `Source.cpp`

The translation unit has three functions, `radixSortA`, `countingRadixSort` and
`radixSort`, each of which reorders a `std::vector<std::string>` in place.

Modelling choices.

* A `std::string` is the list of its bytes (`Str`), a `std::vector` is a list.
* A function returns `Option`: `none` stands for "no defined result", which in this
  source is always an out-of-range subscript (`buckets[...]`, `count[...]`,
  `wordsByLength[...]`, `s[pos]` past the terminator), the overflow of `maxLen + 1`, or,
  for a negative container size, the exception thrown by the `std::vector` constructor.
  The source has no error path of its own.
* `s[pos]` has type `char`.  Whether plain `char` is signed is implementation-defined
  (it is signed by default with gcc, clang and MSVC on x86, unsigned on some ARM and
  PowerPC ABIs), so the model takes it as the parameter `signedChar`.  With a signed
  `char` a byte of value `128..255` is a negative number; converted to `size_t` for the
  subscript it is far past the end of the vector.  The comment on each function says
  `Assume all are ASCII`.
* The parameter `maxLen` of `radixSort` is an `int` of 32 bits: `maxLen + 1` overflows
  at `INT_MAX`, and there the model has no defined result.  The `int` counters (`idx`,
  `N`, `count[b]`, `startingIndex`) are unbounded numbers: arrays are taken to have fewer
  than `2^31` elements.
* A moved-from string is modelled as the empty string (`movedFrom`); every slot that
  was moved from is written again before it is read.
-/

namespace RadixSort

/-- One `char` of a string, by its byte value. -/
abbrev Byte := Fin 256

/-- A `std::string`: its bytes in order. -/
abbrev Str := List Byte

/-- The constant `BUCKETS` declared in each of the three functions. -/
def BUCKETS : Nat := 256

/-- State of a `std::string` after `std::move` took its contents. -/
def movedFrom : Str := []

/-- The `int` a `char` promotes to when it is used as a subscript or in `c + 1`.
With a signed `char` the bytes `128..255` are the values `-128..-1`. -/
def charToInt (signedChar : Bool) (c : Byte) : Int :=
  if signedChar && decide (128 ≤ c.val) then (c.val : Int) - 256 else (c.val : Int)

/-- Subscript `v[i]` of a `std::vector` of `size` elements with an `int` index: the
index converts to `size_t`, so it is in range exactly when `0 ≤ i < size`. -/
def vecIndex (i : Int) (size : Nat) : Option Nat :=
  if 0 ≤ i ∧ i < (size : Int) then some i.toNat else none

/-- Subscript `s[pos]` of a `std::string`: the byte at `pos`, the terminator `0` at
`pos = s.size()`, and nothing beyond. -/
def charAt (s : Str) (pos : Nat) : Option Byte :=
  match s[pos]? with
  | some c => some c
  | none => if pos = s.length then some 0 else none

/-- Effect of `v[i].push_back(s)` on a vector of vectors, for `i` in range. -/
def pushBack : List (List Str) → Nat → Str → List (List Str)
  | [], _, _ => []
  | b :: bs, 0, s => (b ++ [s]) :: bs
  | b :: bs, i + 1, s => b :: pushBack bs i s

/-- Lines 15-18 and 110-113: `buckets[s[pos]].push_back(std::move(s))` for each string
of the traversed range, in order. -/
def distribute (signedChar : Bool) (pos : Nat) :
    List Str → List (List Str) → Option (List (List Str))
  | [], buckets => some buckets
  | s :: rest, buckets =>
    match charAt s pos with
    | none => none
    | some c =>
      match vecIndex (charToInt signedChar c) buckets.length with
      | none => none
      | some i => distribute signedChar pos rest (pushBack buckets i s)

/-- Lines 23-26: `arr[idx++] = std::move(s)` for each string of one bucket. -/
def moveBack : List Str → Nat → List Str → Option (List Str × Nat)
  | arr, idx, [] => some (arr, idx)
  | arr, idx, s :: rest =>
    if idx < arr.length then moveBack (arr.set idx s) (idx + 1) rest else none

/-- Lines 21-29: the buckets are emptied into `arr` one after the other, `idx` running
on from bucket to bucket. -/
def collect : List Str → Nat → List (List Str) → Option (List Str × Nat)
  | arr, idx, [] => some (arr, idx)
  | arr, idx, b :: bs =>
    match moveBack arr idx b with
    | none => none
    | some (arr1, idx1) => collect arr1 idx1 bs

/-- Buckets after `thisBucket.clear()` has run on each of them. -/
def cleared (buckets : List (List Str)) : List (List Str) :=
  buckets.map (fun _ => [])

/-- One iteration of the loop of `radixSortA` (lines 15-29) at position `pos`: returns
the array and the (cleared) buckets. -/
def bucketPass (signedChar : Bool) (arr : List Str) (buckets : List (List Str))
    (pos : Nat) : Option (List Str × List (List Str)) :=
  match distribute signedChar pos arr buckets with
  | none => none
  | some filled =>
    match collect (arr.map (fun _ => movedFrom)) 0 filled with
    | none => none
    | some (arr1, _) => some (arr1, cleared filled)

/-- The loop `for (pos = stringLen - 1; pos >= 0; --pos)` of `radixSortA`; the first
argument is `pos + 1`. -/
def radixSortALoop (signedChar : Bool) :
    Nat → List Str → List (List Str) → Option (List Str)
  | 0, arr, _ => some arr
  | pos + 1, arr, buckets =>
    match bucketPass signedChar arr buckets pos with
    | none => none
    | some (arr1, buckets1) => radixSortALoop signedChar pos arr1 buckets1

/-- `radixSortA(arr, stringLen)`: the array on return. -/
def radixSortA (signedChar : Bool) (arr : List Str) (stringLen : Int) :
    Option (List Str) :=
  radixSortALoop signedChar stringLen.toNat arr (List.replicate BUCKETS [])

/-- Effect of `++count[i]`, for `i` in range. -/
def incr (count : List Nat) (i : Nat) : List Nat :=
  count.set i (count.getD i 0 + 1)

/-- Lines 48-51: `++count[(*in)[i][pos] + 1]` for each string of the input buffer. -/
def countDigits (signedChar : Bool) (pos : Nat) : List Str → List Nat → Option (List Nat)
  | [], count => some count
  | s :: rest, count =>
    match charAt s pos with
    | none => none
    | some c =>
      match vecIndex (charToInt signedChar c + 1) count.length with
      | none => none
      | some j => countDigits signedChar pos rest (incr count j)

/-- Lines 53-56: `count[b] += count[b - 1]` for `b = 1 .. BUCKETS`. -/
def prefixSums (count : List Nat) : List Nat :=
  (List.range' 1 BUCKETS).foldl
    (fun cnt b => cnt.set b (cnt.getD b 0 + cnt.getD (b - 1) 0)) count

/-- Lines 58-61: `(*out)[count[(*in)[i][pos]]++] = std::move((*in)[i])` for each string
of the input buffer; returns the output buffer and the table. -/
def place (signedChar : Bool) (pos : Nat) :
    List Str → List Nat → List Str → Option (List Str × List Nat)
  | [], count, out => some (out, count)
  | s :: rest, count, out =>
    match charAt s pos with
    | none => none
    | some c =>
      match vecIndex (charToInt signedChar c) count.length with
      | none => none
      | some d =>
        let j := count.getD d 0
        if j < out.length then place signedChar pos rest (incr count d) (out.set j s)
        else none

/-- Lines 46-61, one pass of `countingRadixSort` at `pos` from buffer `inp` into buffer
`out`: returns the output buffer and what is left of the input buffer. -/
def countingPass (signedChar : Bool) (pos : Nat) (inp out : List Str) :
    Option (List Str × List Str) :=
  match countDigits signedChar pos inp (List.replicate (BUCKETS + 1) 0) with
  | none => none
  | some count =>
    match place signedChar pos inp (prefixSums count) out with
    | none => none
    | some (out1, _) => some (out1, inp.map (fun _ => movedFrom))

/-- The two vectors of `countingRadixSort` and which of them `in` points to. -/
structure Buffers where
  /-- the caller's array -/
  arr : List Str
  /-- the local `buffer` -/
  buffer : List Str
  /-- `in == &arr` (and then `out == &buffer`) -/
  inIsArr : Bool

/-- The vector `*in`. -/
def Buffers.input (st : Buffers) : List Str :=
  if st.inIsArr then st.arr else st.buffer

/-- The vector `*out`. -/
def Buffers.output (st : Buffers) : List Str :=
  if st.inIsArr then st.buffer else st.arr

/-- Lines 46-64: one pass followed by `std::swap(in, out)`. -/
def countingStep (signedChar : Bool) (pos : Nat) (st : Buffers) : Option Buffers :=
  match countingPass signedChar pos st.input st.output with
  | none => none
  | some (out1, in1) =>
    if st.inIsArr then some ⟨in1, out1, false⟩ else some ⟨out1, in1, true⟩

/-- The loop `for (pos = stringLen - 1; pos >= 0; --pos)` of `countingRadixSort`; the
first argument is `pos + 1`. -/
def countingLoop (signedChar : Bool) : Nat → Buffers → Option Buffers
  | 0, st => some st
  | pos + 1, st =>
    match countingStep signedChar pos st with
    | none => none
    | some st1 => countingLoop signedChar pos st1

/-- Lines 70-73: `(*out)[i] = std::move((*in)[i])` for `i = start .. start + n - 1`. -/
def copyBack (inp : List Str) : Nat → Nat → List Str → Option (List Str)
  | 0, _, out => some out
  | n + 1, i, out =>
    match inp[i]? with
    | none => none
    | some s => if i < out.length then copyBack inp n (i + 1) (out.set i s) else none

/-- `countingRadixSort(arr, stringLen)`: the caller's array on return.  The test
`stringLen % 2 == 1` uses the truncating remainder of C++. -/
def countingRadixSort (signedChar : Bool) (arr : List Str) (stringLen : Int) :
    Option (List Str) :=
  match countingLoop signedChar stringLen.toNat
      ⟨arr, List.replicate arr.length [], true⟩ with
  | none => none
  | some st =>
    if stringLen.tmod 2 = 1 then
      match copyBack st.input st.arr.length 0 st.output with
      | none => none
      | some out1 => if st.inIsArr then some (st.arr.map (fun _ => movedFrom)) else some out1
    else some st.arr

/-- Lines 91-94: `wordsByLength[s.length()].push_back(std::move(s))` for each string. -/
def distributeByLength : List Str → List (List Str) → Option (List (List Str))
  | [], words => some words
  | s :: rest, words =>
    if s.length < words.length then distributeByLength rest (pushBack words s.length s)
    else none

/-- The largest value of an `int`, `2^31 - 1`. -/
def INT_MAX : Int := 2147483647

/-- A vector of vectors after each of its strings has been moved out (lines 99-102): it
is not cleared, so the sizes stay, and the strings are moved-from. -/
def movedOut (words : List (List Str)) : List (List Str) :=
  words.map (fun w => w.map (fun _ => movedFrom))

/-- Lines 88-103 of `radixSort`: the strings are grouped by length and written back.
Returns the array and `wordsByLength` as line 103 leaves it.  The size `maxLen + 1` is
`int` arithmetic: it overflows for `maxLen = INT_MAX`, and a negative size makes the
constructor of the vector throw. -/
def lengthBucket (arr : List Str) (maxLen : Int) : Option (List Str × List (List Str)) :=
  if INT_MAX < maxLen + 1 then none
  else if maxLen + 1 < 0 then none
  else
    match distributeByLength arr (List.replicate (maxLen + 1).toNat []) with
    | none => none
    | some words =>
      match collect (arr.map (fun _ => movedFrom)) 0 words with
      | none => none
      | some (arr1, _) => some (arr1, movedOut words)

/-- Lines 110-124: one digit pass of `radixSort` at `pos` over `arr[startingIndex ..]`.
The loop test `i < arr.size()` is an unsigned comparison, so a negative `startingIndex`
would run no iteration. -/
def radixSortPass (signedChar : Bool) (arr : List Str) (buckets : List (List Str))
    (startingIndex : Int) (pos : Nat) : Option (List Str × List (List Str)) :=
  if startingIndex < 0 then
    if buckets.all (fun b => b.isEmpty) then some (arr, cleared buckets) else none
  else
    let start := startingIndex.toNat
    match distribute signedChar pos (arr.drop start) buckets with
    | none => none
    | some filled =>
      match collect (arr.take start ++ (arr.drop start).map (fun _ => movedFrom))
          start filled with
      | none => none
      | some (arr1, _) => some (arr1, cleared filled)

/-- The loop of lines 106-125; the first numeric argument is `pos + 1`. -/
def radixSortLoop (signedChar : Bool) (wordsByLength : List (List Str)) :
    Nat → List Str → List (List Str) → Int → Option (List Str)
  | 0, arr, _, _ => some arr
  | pos + 1, arr, buckets, startingIndex =>
    match wordsByLength[pos + 1]? with
    | none => none
    | some words =>
      let start1 := startingIndex - (words.length : Int)
      match radixSortPass signedChar arr buckets start1 pos with
      | none => none
      | some (arr1, buckets1) =>
        radixSortLoop signedChar wordsByLength pos arr1 buckets1 start1

/-- `radixSort(arr, maxLen)`: the array on return. -/
def radixSort (signedChar : Bool) (arr : List Str) (maxLen : Int) : Option (List Str) :=
  match lengthBucket arr maxLen with
  | none => none
  | some (arr1, wordsByLength) =>
    radixSortLoop signedChar wordsByLength maxLen.toNat arr1
      (List.replicate BUCKETS []) (arr1.length : Int)

/-! ## The order of the specification -/

/-- Byte-wise lexicographic order on strings, as `std::string` compares: the first
differing byte decides, and a proper prefix comes first. -/
def strLe : Str → Str → Bool
  | [], _ => true
  | _ :: _, [] => false
  | a :: as, b :: bs => decide (a < b) || (a == b && strLe as bs)

/-- The order `strLe` as a relation. -/
def StrLe (a b : Str) : Prop := strLe a b = true

instance : DecidableRel StrLe := fun a b => inferInstanceAs (Decidable (strLe a b = true))

/-- Reference sort of the specification: insertion sort by `StrLe`. -/
def referenceSort (arr : List Str) : List Str := arr.insertionSort StrLe

/-- Every byte of the array is one the code can use as a subscript: any byte when
`char` is unsigned, the bytes `0..127` when it is signed. -/
def ValidBytes (signedChar : Bool) (arr : List Str) : Prop :=
  ∀ s ∈ arr, ∀ c ∈ s, signedChar = true → c.val < 128

instance (signedChar : Bool) (arr : List Str) : Decidable (ValidBytes signedChar arr) :=
  inferInstanceAs (Decidable (∀ s ∈ arr, ∀ c ∈ s, signedChar = true → c.val < 128))

/-! ## Auxiliary definitions of the proofs -/

/-- The byte at `pos` as a number (`0` for the terminator). -/
def digit (pos : Nat) (s : Str) : Nat := (s.getD pos 0).val

/-- Distribution into buckets by an arbitrary key, without range checks. -/
def distributeBy (key : Str → Nat) : List Str → List (List Str) → List (List Str)
  | [], buckets => buckets
  | s :: rest, buckets => distributeBy key rest (pushBack buckets (key s) s)

/-- Stable sort by a key below `n`: the strings of key `0`, then those of key `1`, ...,
each group in input order.  This is what one bucket pass computes. -/
def stableSortBy (key : Str → Nat) (n : Nat) (l : List Str) : List Str :=
  ((List.range n).map (fun b => l.filter (fun s => key s == b))).flatten

/-- Every string of `l` has a byte at `pos` that the code can use as a subscript. -/
def DigitsOk (sc : Bool) (pos : Nat) (l : List Str) : Prop :=
  ∀ s ∈ l, pos < s.length ∧ (sc = true → (s.getD pos 0).val < 128)

/-- Order of two strings by their suffixes from position `p` on. -/
def SufLe (p : Nat) (a b : Str) : Prop := strLe (a.drop p) (b.drop p) = true

/-- Number of strings of `l` with key `d`: the size of bucket `d`. -/
def bucketSize (key : Str → Nat) (l : List Str) (d : Nat) : Nat :=
  (l.filter (fun s => key s == d)).length

/-- Number of strings of `l` placed before bucket `d` by the stable sort. -/
def offset (key : Str → Nat) (l : List Str) (d : Nat) : Nat :=
  (stableSortBy key d l).length

/-- The frequency loop without range checks. -/
def tally (pos : Nat) : List Str → List Nat → List Nat
  | [], count => count
  | s :: rest, count => tally pos rest (incr count (digit pos s + 1))

/-- The prefix-sum loop run for `b = 1 .. k`. -/
def prefixSumsTo (k : Nat) (count : List Nat) : List Nat :=
  (List.range' 1 k).foldl
    (fun cnt b => cnt.set b (cnt.getD b 0 + cnt.getD (b - 1) 0)) count

/-- The passes at positions `n - 1, ..., 0`, each as a stable sort by one byte. -/
def lsdPasses : Nat → List Str → List Str
  | 0, arr => arr
  | pos + 1, arr => lsdPasses pos (stableSortBy (digit pos) BUCKETS arr)

/-- The strings of `arr` of length `n`, in input order: `wordsByLength[n]`. -/
def byLength (arr : List Str) (n : Nat) : List Str :=
  arr.filter (fun s => s.length == n)

/-- The active part of the array after the passes at positions `n - 1, ..., 0`, when it
is `act` before them: each pass first takes in the strings of length `pos + 1`. -/
def varPasses (arr0 : List Str) : Nat → List Str → List Str
  | 0, act => act
  | pos + 1, act =>
    varPasses arr0 pos (stableSortBy (digit pos) BUCKETS (byLength arr0 (pos + 1) ++ act))

/-- What `radixSort` computes on strings of length at most `M`. -/
def varSorted (arr : List Str) (M : Nat) : List Str :=
  stableSortBy List.length 1 arr ++ varPasses arr M []


/-! ## The loops cut short, and the subscripts of the placement loop -/

/-- The loop of `radixSortA` cut short: the iterations for the positions `n - 1` down
to `stop`, returning the array and the buckets as the iteration at `stop - 1` would find
them.  The numeric argument after `stop` is `pos + 1`. -/
def radixSortALoopTo (signedChar : Bool) (stop : Nat) :
    Nat → List Str → List (List Str) → Option (List Str × List (List Str))
  | 0, arr, buckets => some (arr, buckets)
  | pos + 1, arr, buckets =>
    if pos + 1 ≤ stop then some (arr, buckets)
    else
      match bucketPass signedChar arr buckets pos with
      | none => none
      | some (arr1, buckets1) => radixSortALoopTo signedChar stop pos arr1 buckets1

/-- The loop of `countingRadixSort` cut short: the iterations for the positions `n - 1`
down to `stop`.  The numeric argument after `stop` is `pos + 1`. -/
def countingLoopTo (signedChar : Bool) (stop : Nat) : Nat → Buffers → Option Buffers
  | 0, st => some st
  | pos + 1, st =>
    if pos + 1 ≤ stop then some st
    else
      match countingStep signedChar pos st with
      | none => none
      | some st1 => countingLoopTo signedChar stop pos st1

/-- The digit loop of `radixSort` cut short: the iterations for the positions `n - 1`
down to `stop`, returning the array, the buckets and `startingIndex`.  The numeric
argument after `stop` is `pos + 1`. -/
def radixSortLoopTo (signedChar : Bool) (wordsByLength : List (List Str)) (stop : Nat) :
    Nat → List Str → List (List Str) → Int → Option (List Str × List (List Str) × Int)
  | 0, arr, buckets, startingIndex => some (arr, buckets, startingIndex)
  | pos + 1, arr, buckets, startingIndex =>
    if pos + 1 ≤ stop then some (arr, buckets, startingIndex)
    else
      match wordsByLength[pos + 1]? with
      | none => none
      | some words =>
        let start1 := startingIndex - (words.length : Int)
        match radixSortPass signedChar arr buckets start1 pos with
        | none => none
        | some (arr1, buckets1) =>
          radixSortLoopTo signedChar wordsByLength stop pos arr1 buckets1 start1

/-- State of `radixSort(arr, maxLen)` when the iteration at `pos` has executed line 108:
the array, the buckets, and the `startingIndex` that the pass at `pos` uses. -/
def passStart (signedChar : Bool) (arr : List Str) (maxLen : Int) (pos : Nat) :
    Option (List Str × List (List Str) × Int) :=
  match lengthBucket arr maxLen with
  | none => none
  | some (arr1, wordsByLength) =>
    match radixSortLoopTo signedChar wordsByLength (pos + 1) maxLen.toNat arr1
        (List.replicate BUCKETS []) (arr1.length : Int) with
    | none => none
    | some (arr2, buckets, startingIndex) =>
      match wordsByLength[pos + 1]? with
      | none => none
      | some words => some (arr2, buckets, startingIndex - (words.length : Int))

/-- The output subscripts `count[(*in)[i][pos]]` that the placement loop of lines 58-61
uses, in the order of the scan, for an output buffer of `size` elements. -/
def placeIndices (signedChar : Bool) (pos : Nat) :
    List Str → List Nat → Nat → Option (List Nat)
  | [], _, _ => some []
  | s :: rest, count, size =>
    match charAt s pos with
    | none => none
    | some c =>
      match vecIndex (charToInt signedChar c) count.length with
      | none => none
      | some d =>
        let j := count.getD d 0
        if j < size then
          match placeIndices signedChar pos rest (incr count d) size with
          | none => none
          | some js => some (j :: js)
        else none

/-- The writes `out[j] = s` of a scan, replayed from the list of subscripts. -/
def writeAll : List Str → List Nat → List Str → List Str
  | s :: rest, j :: js, out => writeAll rest js (out.set j s)
  | _, _, out => out

/-- The passes at positions `n - 1` down to `stop`, each as a stable sort by one
byte. -/
def lsdPassesTo (stop : Nat) : Nat → List Str → List Str
  | 0, arr => arr
  | pos + 1, arr =>
    if pos + 1 ≤ stop then arr
    else lsdPassesTo stop pos (stableSortBy (digit pos) BUCKETS arr)

/-- The active part of the array of `radixSort` after the passes at positions `n - 1`
down to `stop`, when it is `act` before them. -/
def varPassesTo (arr0 : List Str) (stop : Nat) : Nat → List Str → List Str
  | 0, act => act
  | pos + 1, act =>
    if pos + 1 ≤ stop then act
    else
      varPassesTo arr0 stop pos
        (stableSortBy (digit pos) BUCKETS (byLength arr0 (pos + 1) ++ act))
/-! ## Generic facts about the bucket structure -/

theorem length_pushBack (bk : List (List Str)) (i : Nat) (s : Str) :
    (pushBack bk i s).length = bk.length := by
  induction bk generalizing i with
  | nil => rfl
  | cons b bs ih => cases i <;> simp [pushBack, ih]

theorem getElem?_pushBack (bk : List (List Str)) (i j : Nat) (s : Str) :
    (pushBack bk i s)[j]? = if j = i then bk[j]?.map (fun b => b ++ [s]) else bk[j]? := by
  induction bk generalizing i j with
  | nil => simp [pushBack]
  | cons b bs ih =>
    cases i with
    | zero => cases j <;> simp [pushBack]
    | succ i => cases j <;> simp [pushBack, ih]

theorem pushBack_map_range (n : Nat) (f : Nat → List Str) (i : Nat) (s : Str) :
    pushBack ((List.range n).map f) i s
      = (List.range n).map (fun b => if b = i then f b ++ [s] else f b) := by
  apply List.ext_getElem?
  intro j
  rw [getElem?_pushBack]
  by_cases hj : j < n
  · rw [List.getElem?_map, List.getElem?_map, List.getElem?_range hj]
    by_cases hji : j = i <;> simp [hji]
  · have hnone : (List.range n)[j]? = none := by simp; omega
    rw [List.getElem?_map, List.getElem?_map, hnone]
    simp

theorem distributeBy_map_range (key : Str → Nat) (n : Nat) (l : List Str)
    (f : Nat → List Str) :
    distributeBy key l ((List.range n).map f)
      = (List.range n).map (fun b => f b ++ l.filter (fun s => key s == b)) := by
  induction l generalizing f with
  | nil => simp [distributeBy]
  | cons s rest ih =>
    rw [distributeBy, pushBack_map_range, ih]
    apply List.map_congr_left
    intro b _
    by_cases hb : b = key s
    · subst hb; simp [List.filter_cons]
    · have : (key s == b) = false := by simpa using fun h => hb h.symm
      simp [hb, List.filter_cons, this]

theorem replicate_eq_map_range (n : Nat) :
    List.replicate n ([] : List Str) = (List.range n).map (fun _ => []) := by
  apply List.ext_getElem?
  intro j
  by_cases hj : j < n
  · simp [hj, List.getElem?_range, List.getElem?_replicate]
  · have : (List.range n)[j]? = none := by simp; omega
    simp [hj, this, List.getElem?_replicate]

theorem distributeBy_replicate (key : Str → Nat) (n : Nat) (l : List Str) :
    (distributeBy key l (List.replicate n [])).flatten = stableSortBy key n l := by
  rw [replicate_eq_map_range, distributeBy_map_range]
  simp [stableSortBy]

theorem length_distributeBy (key : Str → Nat) (l : List Str) (bk : List (List Str)) :
    (distributeBy key l bk).length = bk.length := by
  induction l generalizing bk with
  | nil => rfl
  | cons s rest ih => rw [distributeBy, ih, length_pushBack]

theorem cleared_eq (bk : List (List Str)) : cleared bk = List.replicate bk.length [] := by
  induction bk with
  | nil => rfl
  | cons b bs ih =>
    simp only [cleared, List.map_cons, List.length_cons, List.replicate_succ] at ih ⊢
    rw [ih]

theorem charAt_of_lt {s : Str} {pos : Nat} (h : pos < s.length) :
    charAt s pos = some (s.getD pos 0) := by
  simp [charAt, List.getElem?_eq_getElem h, List.getD_eq_getElem?_getD]

theorem vecIndex_of_lt {n size : Nat} (h : n < size) : vecIndex (n : Int) size = some n := by
  simp [vecIndex, h]

theorem charToInt_of_valid {sc : Bool} {c : Byte} (h : sc = true → c.val < 128) :
    charToInt sc c = (c.val : Int) := by
  unfold charToInt
  cases sc with
  | false => simp
  | true =>
    have := h rfl
    simp
    omega

theorem distribute_eq (sc : Bool) (pos : Nat) (l : List Str) (bk : List (List Str))
    (hlen : bk.length = BUCKETS) (h : DigitsOk sc pos l) :
    distribute sc pos l bk = some (distributeBy (digit pos) l bk) := by
  induction l generalizing bk with
  | nil => rfl
  | cons s rest ih =>
    have hs := h s (List.mem_cons_self _ _)
    have hlt : (s.getD pos 0).val < bk.length := by
      rw [hlen]; exact (s.getD pos 0).isLt
    rw [distribute, charAt_of_lt hs.1]
    simp only [charToInt_of_valid hs.2, vecIndex_of_lt hlt]
    rw [ih _ (by rw [length_pushBack, hlen]) (fun t ht => h t (List.mem_cons_of_mem _ ht))]
    rfl

theorem set_append_cons (pre : List Str) (m s : Str) (rest : List Str) :
    (pre ++ m :: rest).set pre.length s = pre ++ s :: rest := by
  induction pre with
  | nil => rfl
  | cons p ps ih => simp [ih]

theorem moveBack_eq (b pre mid post : List Str) (hmid : mid.length = b.length) :
    moveBack (pre ++ mid ++ post) pre.length b
      = some (pre ++ b ++ post, pre.length + b.length) := by
  induction b generalizing pre mid with
  | nil =>
    have : mid = [] := List.length_eq_zero.mp hmid
    subst this
    simp [moveBack]
  | cons s rest ih =>
    match mid, hmid with
    | m :: mid1, hmid =>
      have hlt : pre.length < (pre ++ m :: mid1 ++ post).length := by simp
      rw [moveBack, if_pos hlt]
      have hset : (pre ++ m :: mid1 ++ post).set pre.length s
          = (pre ++ [s]) ++ mid1 ++ post := by
        rw [List.append_assoc, List.cons_append, set_append_cons]; simp
      have hlen : pre.length + 1 = (pre ++ [s]).length := by simp
      rw [hset, hlen, ih (pre ++ [s]) mid1 (by simpa using hmid)]
      simp
      omega

theorem collect_eq (bk : List (List Str)) (pre mid post : List Str)
    (hmid : mid.length = bk.flatten.length) :
    collect (pre ++ mid ++ post) pre.length bk
      = some (pre ++ bk.flatten ++ post, pre.length + bk.flatten.length) := by
  induction bk generalizing pre mid with
  | nil =>
    have : mid = [] := List.length_eq_zero.mp (by simpa using hmid)
    subst this
    simp [collect]
  | cons b bs ih =>
    have hle : b.length ≤ mid.length := by
      rw [hmid]; simp
    have hsplit : pre ++ mid ++ post
        = pre ++ mid.take b.length ++ (mid.drop b.length ++ post) := by
      rw [List.append_assoc pre (mid.take b.length), ← List.append_assoc (mid.take b.length),
        List.take_append_drop, List.append_assoc]
    have htake : (mid.take b.length).length = b.length := by
      rw [List.length_take]; omega
    rw [collect, hsplit, moveBack_eq b pre _ _ htake]
    simp only
    have hlen : pre.length + b.length = (pre ++ b).length := by simp
    have hdrop : (mid.drop b.length).length = bs.flatten.length := by
      rw [List.length_drop, hmid]; simp
    rw [← List.append_assoc (pre ++ b), hlen, ih (pre ++ b) _ hdrop]
    simp
    omega

theorem filter_lt_succ_perm (key : Str → Nat) (n : Nat) (l : List Str) :
    (l.filter (fun s => decide (key s < n)) ++ l.filter (fun s => key s == n)).Perm
      (l.filter (fun s => decide (key s < n + 1))) := by
  induction l with
  | nil => simp
  | cons s rest ih =>
    rcases Nat.lt_trichotomy (key s) n with h | h | h
    · have h1 : decide (key s < n) = true := by simpa using h
      have h2 : (key s == n) = false := by simpa using Nat.ne_of_lt h
      have h3 : decide (key s < n + 1) = true := by simpa using Nat.lt_succ_of_lt h
      simp only [List.filter_cons, h1, h2, h3, if_true, List.cons_append]
      exact ih.cons _
    · have h1 : decide (key s < n) = false := by simpa using Nat.le_of_eq h.symm
      have h2 : (key s == n) = true := by simpa using h
      have h3 : decide (key s < n + 1) = true := by simpa using Nat.lt_succ_of_le (Nat.le_of_eq h)
      simp only [List.filter_cons, h1, h2, h3, if_true]
      exact List.perm_middle.trans (ih.cons _)
    · have h1 : decide (key s < n) = false := by simpa using Nat.le_of_lt h
      have h2 : (key s == n) = false := by simpa using Nat.ne_of_gt h
      have h3 : decide (key s < n + 1) = false := by simpa using h
      simp only [List.filter_cons, h1, h2, h3]
      simpa using ih

theorem stableSortBy_succ (key : Str → Nat) (n : Nat) (l : List Str) :
    stableSortBy key (n + 1) l
      = stableSortBy key n l ++ l.filter (fun s => key s == n) := by
  simp [stableSortBy, List.range_succ]

theorem stableSortBy_perm_filter (key : Str → Nat) (n : Nat) (l : List Str) :
    (stableSortBy key n l).Perm (l.filter (fun s => decide (key s < n))) := by
  induction n with
  | zero => simp [stableSortBy]
  | succ n ih =>
    rw [stableSortBy_succ]
    exact (ih.append_right _).trans (filter_lt_succ_perm key n l)

theorem stableSortBy_perm (key : Str → Nat) (n : Nat) (l : List Str)
    (h : ∀ s ∈ l, key s < n) : (stableSortBy key n l).Perm l := by
  have := stableSortBy_perm_filter key n l
  rwa [List.filter_eq_self.mpr (by simpa using h)] at this

theorem digit_lt (pos : Nat) (s : Str) : digit pos s < BUCKETS := (s.getD pos 0).isLt

theorem length_stableSortBy_digit (pos : Nat) (l : List Str) :
    (stableSortBy (digit pos) BUCKETS l).length = l.length :=
  (stableSortBy_perm _ _ l (fun s _ => digit_lt pos s)).length_eq

/-- One pass of `radixSortA` on empty buckets is the stable sort by the byte at `pos`,
and leaves the buckets empty. -/
theorem bucketPass_eq (sc : Bool) (arr : List Str) (pos : Nat) (h : DigitsOk sc pos arr) :
    bucketPass sc arr (List.replicate BUCKETS []) pos
      = some (stableSortBy (digit pos) BUCKETS arr, List.replicate BUCKETS []) := by
  unfold bucketPass
  rw [distribute_eq sc pos arr _ (by simp) h]
  simp only
  have hfl := distributeBy_replicate (digit pos) BUCKETS arr
  have hc := collect_eq (distributeBy (digit pos) arr (List.replicate BUCKETS [])) []
    (arr.map (fun _ => movedFrom)) [] (by rw [hfl, length_stableSortBy_digit]; simp)
  simp only [List.nil_append, List.append_nil, List.length_nil] at hc
  rw [hc]
  simp only [hfl, cleared_eq, length_distributeBy, List.length_replicate]

/-! ## The order -/

theorem strLe_refl (a : Str) : strLe a a = true := by
  induction a with
  | nil => rfl
  | cons x xs ih => simp [strLe, ih]

theorem strLe_total (a b : Str) : strLe a b = true ∨ strLe b a = true := by
  induction a generalizing b with
  | nil => exact Or.inl rfl
  | cons x xs ih =>
    cases b with
    | nil => exact Or.inr rfl
    | cons y ys =>
      simp only [strLe, Bool.or_eq_true, Bool.and_eq_true, decide_eq_true_eq, beq_iff_eq]
      rcases lt_trichotomy x y with h | h | h
      · exact Or.inl (Or.inl h)
      · rcases ih ys with h1 | h1
        · exact Or.inl (Or.inr ⟨h, h1⟩)
        · exact Or.inr (Or.inr ⟨h.symm, h1⟩)
      · exact Or.inr (Or.inl h)

theorem strLe_trans {a b c : Str} (hab : strLe a b = true) (hbc : strLe b c = true) :
    strLe a c = true := by
  induction a generalizing b c with
  | nil => rfl
  | cons x xs ih =>
    cases b with
    | nil => simp [strLe] at hab
    | cons y ys =>
      cases c with
      | nil => simp [strLe] at hbc
      | cons z zs =>
        simp only [strLe, Bool.or_eq_true, Bool.and_eq_true, decide_eq_true_eq,
          beq_iff_eq] at hab hbc ⊢
        rcases hab with h1 | ⟨h1, h2⟩
        · rcases hbc with h3 | ⟨h3, _⟩
          · exact Or.inl (lt_trans h1 h3)
          · exact Or.inl (h3 ▸ h1)
        · rcases hbc with h3 | ⟨h3, h4⟩
          · exact Or.inl (h1 ▸ h3)
          · exact Or.inr ⟨h1.trans h3, ih h2 h4⟩

theorem strLe_antisymm {a b : Str} (hab : strLe a b = true) (hba : strLe b a = true) :
    a = b := by
  induction a generalizing b with
  | nil =>
    cases b with
    | nil => rfl
    | cons y ys => simp [strLe] at hba
  | cons x xs ih =>
    cases b with
    | nil => simp [strLe] at hab
    | cons y ys =>
      simp only [strLe, Bool.or_eq_true, Bool.and_eq_true, decide_eq_true_eq,
        beq_iff_eq] at hab hba
      rcases hab with h1 | ⟨h1, h2⟩
      · rcases hba with h3 | ⟨h3, _⟩
        · exact absurd h1 (lt_asymm h3)
        · exact absurd h1 (h3 ▸ lt_irrefl _)
      · rcases hba with h3 | ⟨_, h4⟩
        · exact absurd h3 (h1 ▸ lt_irrefl _)
        · rw [h1, ih h2 h4]

theorem drop_eq_digit_cons {s : Str} {p : Nat} (h : p < s.length) :
    s.drop p = s.getD p 0 :: s.drop (p + 1) := by
  rw [List.drop_eq_getElem_cons h, List.getD_eq_getElem _ _ h]

theorem sufLe_of_digit_lt {a b : Str} {p : Nat} (ha : p < a.length) (hb : p < b.length)
    (h : digit p a < digit p b) : SufLe p a b := by
  unfold SufLe
  rw [drop_eq_digit_cons ha, drop_eq_digit_cons hb]
  have hlt : a.getD p 0 < b.getD p 0 := h
  revert hlt
  generalize a.getD p 0 = x
  generalize b.getD p 0 = y
  intro hlt
  simp [strLe, hlt]

theorem sufLe_of_digit_eq {a b : Str} {p : Nat} (ha : p < a.length) (hb : p < b.length)
    (h : digit p a = digit p b) (hs : SufLe (p + 1) a b) : SufLe p a b := by
  unfold SufLe at hs ⊢
  rw [drop_eq_digit_cons ha, drop_eq_digit_cons hb]
  have heq : a.getD p 0 = b.getD p 0 := Fin.ext h
  rw [heq]
  simp [strLe, hs]

theorem sufLe_zero (a b : Str) : SufLe 0 a b ↔ StrLe a b := by
  simp [SufLe, StrLe]

/-- A stable sort by the byte at `p` turns an array ordered by the suffixes from `p + 1`
into one ordered by the suffixes from `p`. -/
theorem stableSortBy_digit_pairwise (p : Nat) (l : List Str)
    (hlen : ∀ s ∈ l, p < s.length) (hs : l.Pairwise (SufLe (p + 1))) :
    (stableSortBy (digit p) BUCKETS l).Pairwise (SufLe p) := by
  unfold stableSortBy
  rw [List.pairwise_flatten]
  constructor
  · intro l1 hl1
    obtain ⟨b, _, rfl⟩ := List.mem_map.mp hl1
    refine (hs.filter _).imp_of_mem ?_
    intro x y hx hy hxy
    have hx1 := List.mem_filter.mp hx
    have hy1 := List.mem_filter.mp hy
    have hxb : digit p x = b := by simpa using hx1.2
    have hyb : digit p y = b := by simpa using hy1.2
    exact sufLe_of_digit_eq (hlen x hx1.1) (hlen y hy1.1) (hxb.trans hyb.symm) hxy
  · rw [List.pairwise_map]
    refine (List.pairwise_lt_range BUCKETS).imp ?_
    intro b1 b2 hlt x hx y hy
    have hx1 := List.mem_filter.mp hx
    have hy1 := List.mem_filter.mp hy
    have hxb : digit p x = b1 := by simpa using hx1.2
    have hyb : digit p y = b2 := by simpa using hy1.2
    exact sufLe_of_digit_lt (hlen x hx1.1) (hlen y hy1.1) (by omega)

theorem digitsOk_of_valid {sc : Bool} {arr : List Str} {pos : Nat}
    (hlen : ∀ s ∈ arr, pos < s.length) (hv : ValidBytes sc arr) : DigitsOk sc pos arr := by
  intro s hs
  refine ⟨hlen s hs, fun hsc => ?_⟩
  have hmem : s.getD pos 0 ∈ s := by
    rw [List.getD_eq_getElem _ _ (hlen s hs)]
    exact List.getElem_mem _
  exact hv s hs _ hmem hsc

theorem validBytes_of_perm {sc : Bool} {a b : List Str} (h : a.Perm b)
    (hv : ValidBytes sc b) : ValidBytes sc a :=
  fun s hs => hv s (h.subset hs)

theorem pairwise_sufLe_of_length_le (n : Nat) (arr : List Str)
    (hlen : ∀ s ∈ arr, s.length ≤ n) : arr.Pairwise (SufLe n) := by
  rw [List.pairwise_iff_forall_sublist]
  intro a b hab
  have ha : a ∈ arr := hab.subset (by simp)
  simp [SufLe, List.drop_eq_nil_of_le (hlen a ha), strLe]

theorem eq_referenceSort {out arr : List Str} (hp : out.Perm arr)
    (hs : out.Pairwise StrLe) : out = referenceSort arr := by
  haveI : IsTotal Str StrLe := ⟨strLe_total⟩
  haveI : IsTrans Str StrLe := ⟨fun _ _ _ => strLe_trans⟩
  haveI : IsAntisymm Str StrLe := ⟨fun _ _ => strLe_antisymm⟩
  exact List.eq_of_perm_of_sorted (hp.trans (List.perm_insertionSort StrLe arr).symm) hs
    (List.sorted_insertionSort StrLe arr)

theorem pairwise_strLe_of_sufLe_zero {l : List Str} (h : l.Pairwise (SufLe 0)) :
    l.Pairwise StrLe :=
  h.imp (fun {a b} hab => (sufLe_zero a b).mp hab)

/-! ## The counting pass -/

theorem getD_set_nat (c : List Nat) (i j v : Nat) (hi : i < c.length) :
    (c.set i v).getD j 0 = if j = i then v else c.getD j 0 := by
  simp only [List.getD_eq_getElem?_getD, List.getElem?_set]
  by_cases h : i = j
  · subst h; simp [hi]
  · have h2 : ¬ j = i := fun e => h e.symm
    simp [h, h2]

theorem getD_incr (c : List Nat) (i j : Nat) (hi : i < c.length) :
    (incr c i).getD j 0 = if j = i then c.getD i 0 + 1 else c.getD j 0 :=
  getD_set_nat c i j _ hi

theorem length_incr (c : List Nat) (i : Nat) : (incr c i).length = c.length := by
  simp [incr]

theorem length_tally (pos : Nat) (l : List Str) (c : List Nat) :
    (tally pos l c).length = c.length := by
  induction l generalizing c with
  | nil => rfl
  | cons s rest ih => rw [tally, ih, length_incr]

theorem getD_tally (pos : Nat) (l : List Str) (c : List Nat) (j : Nat)
    (hc : c.length = BUCKETS + 1) :
    (tally pos l c).getD j 0
      = c.getD j 0 + (l.filter (fun s => digit pos s + 1 == j)).length := by
  induction l generalizing c with
  | nil => simp [tally]
  | cons s rest ih =>
    have hi : digit pos s + 1 < c.length := by
      have := digit_lt pos s
      omega
    rw [tally, ih _ (by rw [length_incr, hc]), getD_incr _ _ _ hi]
    by_cases hj : j = digit pos s + 1
    · subst hj; simp [List.filter_cons]; omega
    · have hne : (digit pos s + 1 == j) = false := by simpa using fun e => hj e.symm
      simp [hj, List.filter_cons, hne]

theorem countDigits_eq (sc : Bool) (pos : Nat) (l : List Str) (c : List Nat)
    (hc : c.length = BUCKETS + 1) (h : DigitsOk sc pos l) :
    countDigits sc pos l c = some (tally pos l c) := by
  induction l generalizing c with
  | nil => rfl
  | cons s rest ih =>
    have hs := h s (List.mem_cons_self _ _)
    have hi : (s.getD pos 0).val + 1 < c.length := by
      have := digit_lt pos s
      unfold digit at this
      omega
    have hcast : ((s.getD pos 0).val : Int) + 1 = (((s.getD pos 0).val + 1 : Nat) : Int) := by
      push_cast; rfl
    rw [countDigits, charAt_of_lt hs.1]
    simp only [charToInt_of_valid hs.2, hcast, vecIndex_of_lt hi]
    rw [ih _ (by rw [length_incr, hc]) (fun t ht => h t (List.mem_cons_of_mem _ ht))]
    rfl

theorem offset_zero (key : Str → Nat) (l : List Str) : offset key l 0 = 0 := by
  simp [offset, stableSortBy]

theorem offset_succ (key : Str → Nat) (l : List Str) (d : Nat) :
    offset key l (d + 1) = offset key l d + bucketSize key l d := by
  simp [offset, bucketSize, stableSortBy_succ]

theorem offset_mono (key : Str → Nat) (l : List Str) {a b : Nat} (h : a ≤ b) :
    offset key l a ≤ offset key l b := by
  induction h with
  | refl => exact Nat.le_refl _
  | step _ ih => rw [offset_succ]; omega

theorem prefixSumsTo_succ (k : Nat) (count : List Nat) :
    prefixSumsTo (k + 1) count
      = (prefixSumsTo k count).set (k + 1)
          ((prefixSumsTo k count).getD (k + 1) 0 + (prefixSumsTo k count).getD k 0) := by
  simp [prefixSumsTo, List.range'_1_concat, List.foldl_append, Nat.add_comm 1 k]

theorem prefixSumsTo_spec (key : Str → Nat) (l : List Str) (count : List Nat) (k : Nat)
    (hlen : count.length = BUCKETS + 1) (h0 : count.getD 0 0 = 0)
    (hc : ∀ j, j < BUCKETS → count.getD (j + 1) 0 = bucketSize key l j) (hk : k ≤ BUCKETS) :
    (prefixSumsTo k count).length = BUCKETS + 1 ∧
    (∀ b, b ≤ k → (prefixSumsTo k count).getD b 0 = offset key l b) ∧
    (∀ b, k < b → (prefixSumsTo k count).getD b 0 = count.getD b 0) := by
  induction k with
  | zero =>
    refine ⟨hlen, ?_, fun b _ => rfl⟩
    intro b hb
    have : b = 0 := by omega
    subst this
    simpa [prefixSumsTo, offset_zero] using h0
  | succ k ih =>
    obtain ⟨h1, h2, h3⟩ := ih (by omega)
    have hlt : k + 1 < (prefixSumsTo k count).length := by rw [h1]; omega
    rw [prefixSumsTo_succ]
    refine ⟨by rw [List.length_set, h1], ?_, ?_⟩
    · intro b hb
      rw [getD_set_nat _ _ _ _ hlt]
      by_cases hbk : b = k + 1
      · subst hbk
        rw [if_pos rfl, h3 (k + 1) (by omega), h2 k (Nat.le_refl _), hc k (by omega), offset_succ]
        omega
      · rw [if_neg hbk]
        exact h2 b (by omega)
    · intro b hb
      rw [getD_set_nat _ _ _ _ hlt, if_neg (by omega)]
      exact h3 b (by omega)

theorem prefixSums_eq (count : List Nat) : prefixSums count = prefixSumsTo BUCKETS count := rfl

/-- After the frequency loop and the prefix-sum loop, slot `b` of the table holds the
number of strings placed before bucket `b`. -/
theorem prefixSums_tally (pos : Nat) (l : List Str) :
    (prefixSums (tally pos l (List.replicate (BUCKETS + 1) 0))).length = BUCKETS + 1 ∧
    ∀ b, b ≤ BUCKETS →
      (prefixSums (tally pos l (List.replicate (BUCKETS + 1) 0))).getD b 0
        = offset (digit pos) l b := by
  have hrep : ∀ j, (List.replicate (BUCKETS + 1) 0).getD j 0 = 0 := by
    intro j
    simp only [List.getD_eq_getElem?_getD, List.getElem?_replicate]
    split <;> rfl
  have hlen := length_tally pos l (List.replicate (BUCKETS + 1) 0)
  rw [List.length_replicate] at hlen
  have hspec := prefixSumsTo_spec (digit pos) l (tally pos l (List.replicate (BUCKETS + 1) 0))
    BUCKETS hlen ?_ ?_ (Nat.le_refl _)
  · exact ⟨hspec.1, hspec.2.1⟩
  · rw [getD_tally pos l _ 0 (by simp), hrep]
    simp
  · intro j _
    rw [getD_tally pos l _ (j + 1) (by simp), hrep]
    simp [bucketSize]

theorem bucketSize_append (key : Str → Nat) (a b : List Str) (d : Nat) :
    bucketSize key (a ++ b) d = bucketSize key a d + bucketSize key b d := by
  simp [bucketSize, List.filter_append]

theorem bucketSize_cons_self (key : Str → Nat) (s : Str) (rest : List Str) :
    bucketSize key (s :: rest) (key s) = bucketSize key rest (key s) + 1 := by
  simp [bucketSize, List.filter_cons]

theorem filter_concat_self (key : Str → Nat) (pre : List Str) (s : Str) :
    (pre ++ [s]).filter (fun t => key t == key s)
      = pre.filter (fun t => key t == key s) ++ [s] := by
  simp [List.filter_append, List.filter_cons]

theorem filter_concat_ne (key : Str → Nat) (pre : List Str) (s : Str) (d : Nat)
    (h : key s ≠ d) :
    (pre ++ [s]).filter (fun t => key t == d) = pre.filter (fun t => key t == d) := by
  have : (key s == d) = false := by simpa using h
  simp [List.filter_append, List.filter_cons, this]

theorem getElem?_stableSortBy (key : Str → Nat) (l : List Str) (n d k : Nat)
    (hd : d < n) (hk : k < bucketSize key l d) :
    (stableSortBy key n l)[offset key l d + k]? = (l.filter (fun s => key s == d))[k]? := by
  induction n with
  | zero => omega
  | succ n ih =>
    rw [stableSortBy_succ]
    by_cases hdn : d < n
    · have h1 : offset key l d + k < (stableSortBy key n l).length := by
        have := offset_mono key l (Nat.succ_le_of_lt hdn)
        rw [offset_succ] at this
        show _ < offset key l n
        omega
      rw [List.getElem?_append_left h1]
      exact ih hdn
    · have hdeq : d = n := by omega
      subst hdeq
      have h1 : (stableSortBy key d l).length ≤ offset key l d + k := Nat.le_add_right _ _
      rw [List.getElem?_append_right h1]
      congr 1
      show offset key l d + k - offset key l d = k
      omega

theorem exists_bucket_of_lt (key : Str → Nat) (l : List Str) (n i : Nat)
    (hi : i < offset key l n) :
    ∃ d, d < n ∧ offset key l d ≤ i ∧ i < offset key l d + bucketSize key l d := by
  induction n with
  | zero => rw [offset_zero] at hi; omega
  | succ n ih =>
    by_cases h : i < offset key l n
    · obtain ⟨d, hd, h1, h2⟩ := ih h
      exact ⟨d, by omega, h1, h2⟩
    · rw [offset_succ] at hi
      exact ⟨n, by omega, by omega, hi⟩

/-- Invariant of the placement loop: when the strings `pre` have been placed, slot `d`
of the table points past the strings of `pre` with byte `d`, and these sit in the output
buffer from `offset d` on, in input order. -/
theorem place_spec (sc : Bool) (pos : Nat) (l : List Str) (rest pre : List Str)
    (hl : l = pre ++ rest) (count : List Nat) (out : List Str)
    (hcl : count.length = BUCKETS + 1) (hol : out.length = l.length)
    (hc : ∀ d, d < BUCKETS →
      count.getD d 0 = offset (digit pos) l d + bucketSize (digit pos) pre d)
    (ho : ∀ d, d < BUCKETS → ∀ k, k < bucketSize (digit pos) pre d →
      out[offset (digit pos) l d + k]? = (pre.filter (fun s => digit pos s == d))[k]?)
    (hok : DigitsOk sc pos rest) :
    ∃ out1 count1, place sc pos rest count out = some (out1, count1) ∧
      out1.length = l.length ∧
      ∀ d, d < BUCKETS → ∀ k, k < bucketSize (digit pos) l d →
        out1[offset (digit pos) l d + k]? = (l.filter (fun s => digit pos s == d))[k]? := by
  induction rest generalizing pre count out with
  | nil =>
    have hpre : l = pre := by simpa using hl
    subst hpre
    exact ⟨out, count, rfl, hol, ho⟩
  | cons s rest ih =>
    have hs := hok s (List.mem_cons_self _ _)
    have hd0 : digit pos s < BUCKETS := digit_lt pos s
    have hdlen : (s.getD pos 0).val < count.length := by
      have := hd0
      unfold digit at this
      omega
    have hsize : ∀ d, bucketSize (digit pos) l d
        = bucketSize (digit pos) pre d + bucketSize (digit pos) (s :: rest) d := by
      intro d; rw [hl, bucketSize_append]
    have hself := bucketSize_cons_self (digit pos) s rest
    have hfull : offset (digit pos) l BUCKETS = l.length := length_stableSortBy_digit pos l
    have hnext : ∀ d, d < BUCKETS → offset (digit pos) l d + bucketSize (digit pos) l d
        ≤ l.length := by
      intro d hd
      rw [← offset_succ, ← hfull]
      exact offset_mono _ _ (Nat.succ_le_of_lt hd)
    have hj : count.getD (digit pos s) 0 < out.length := by
      have h1 := hc _ hd0
      have h2 := hsize (digit pos s)
      have h3 := hnext _ hd0
      omega
    have hstep : place sc pos (s :: rest) count out
        = place sc pos rest (incr count (digit pos s))
            (out.set (count.getD (digit pos s) 0) s) := by
      rw [place, charAt_of_lt hs.1]
      simp only [charToInt_of_valid hs.2, vecIndex_of_lt hdlen]
      exact if_pos hj
    rw [hstep]
    have hdl : digit pos s < count.length := by omega
    apply ih (pre ++ [s]) (by simp [hl]) (incr count (digit pos s))
      (out.set (count.getD (digit pos s) 0) s)
      (by rw [length_incr, hcl]) (by rw [List.length_set, hol])
    · intro d hd
      rw [getD_incr _ _ _ hdl, bucketSize_append]
      by_cases hdd : d = digit pos s
      · subst hdd
        have := hc _ hd
        simp [bucketSize] at this ⊢
        omega
      · have hne : (digit pos s == d) = false := by simpa using fun e => hdd e.symm
        rw [if_neg hdd, hc d hd]
        simp [bucketSize, List.filter_cons, hne]
    · intro d hd k hk
      by_cases hdd : digit pos s = d
      · subst hdd
        rw [filter_concat_self]
        rw [bucketSize_append] at hk
        have hk' : k < bucketSize (digit pos) pre (digit pos s) + 1 := by
          simpa [bucketSize, List.filter_cons] using hk
        by_cases hkk : k < bucketSize (digit pos) pre (digit pos s)
        · rw [List.getElem?_set_ne (by have := hc _ hd; omega),
            List.getElem?_append_left hkk]
          exact ho _ hd k hkk
        · have hkeq : k = bucketSize (digit pos) pre (digit pos s) := by omega
          have hidx : offset (digit pos) l (digit pos s) + k
              = count.getD (digit pos s) 0 := by rw [hc _ hd, hkeq]
          rw [hidx, List.getElem?_set_self hj,
            List.getElem?_append_right (by rw [hkeq]; exact Nat.le_refl _)]
          simp [hkeq, bucketSize]
      · rw [filter_concat_ne _ _ _ _ hdd]
        have hk' : k < bucketSize (digit pos) pre d := by
          rw [bucketSize_append] at hk
          have hne : (digit pos s == d) = false := by simpa using hdd
          simpa [bucketSize, List.filter_cons, hne] using hk
        have hne : count.getD (digit pos s) 0 ≠ offset (digit pos) l d + k := by
          have h1 := hc _ hd0
          have h2 := hsize (digit pos s)
          have h3 := hsize d
          rcases Nat.lt_or_gt_of_ne hdd with hlt | hgt
          · have h4 := offset_mono (digit pos) l (Nat.succ_le_of_lt hlt)
            rw [offset_succ] at h4
            omega
          · have h4 := offset_mono (digit pos) l (Nat.succ_le_of_lt hgt)
            rw [offset_succ] at h4
            omega
        rw [List.getElem?_set_ne hne]
        exact ho d hd k hk'
    · exact fun t ht => hok t (List.mem_cons_of_mem _ ht)

/-- One pass of `countingRadixSort` produces the stable sort by the byte at `pos` in the
output buffer. -/
theorem countingPass_eq (sc : Bool) (pos : Nat) (inp out : List Str)
    (hlen : out.length = inp.length) (h : DigitsOk sc pos inp) :
    countingPass sc pos inp out
      = some (stableSortBy (digit pos) BUCKETS inp, inp.map (fun _ => movedFrom)) := by
  obtain ⟨htl, htv⟩ := prefixSums_tally pos inp
  obtain ⟨out1, count1, hplace, hlen1, hget⟩ := place_spec sc pos inp inp [] rfl
    (prefixSums (tally pos inp (List.replicate (BUCKETS + 1) 0))) out htl hlen
    (fun d hd => by rw [htv d (Nat.le_of_lt hd)]; simp [bucketSize])
    (fun d _ k hk => by simp [bucketSize] at hk) h
  have hout : out1 = stableSortBy (digit pos) BUCKETS inp := by
    apply List.ext_getElem?
    intro i
    by_cases hi : i < inp.length
    · have hi' : i < offset (digit pos) inp BUCKETS := by
        rw [show offset (digit pos) inp BUCKETS = inp.length from
          length_stableSortBy_digit pos inp]
        exact hi
      obtain ⟨d, hd, h1, h2⟩ := exists_bucket_of_lt (digit pos) inp BUCKETS i hi'
      have hidx : i = offset (digit pos) inp d + (i - offset (digit pos) inp d) := by omega
      rw [hidx, hget d hd _ (by omega), getElem?_stableSortBy _ _ _ _ _ hd (by omega)]
    · rw [List.getElem?_eq_none (by omega),
        List.getElem?_eq_none (by rw [length_stableSortBy_digit]; omega)]
  unfold countingPass
  rw [countDigits_eq sc pos inp _ (by simp) h]
  simp only [hplace, hout]

/-! ## The loops -/

theorem lsdPasses_perm (n : Nat) (arr : List Str) : (lsdPasses n arr).Perm arr := by
  induction n generalizing arr with
  | zero => exact List.Perm.refl _
  | succ pos ih =>
    exact (ih _).trans (stableSortBy_perm (digit pos) BUCKETS arr (fun s _ => digit_lt pos s))

theorem lsdPasses_pairwise (n : Nat) (arr : List Str) (hlen : ∀ s ∈ arr, n ≤ s.length)
    (hs : arr.Pairwise (SufLe n)) : (lsdPasses n arr).Pairwise (SufLe 0) := by
  induction n generalizing arr with
  | zero => exact hs
  | succ pos ih =>
    have hperm := stableSortBy_perm (digit pos) BUCKETS arr (fun s _ => digit_lt pos s)
    exact ih _ (fun s hs => Nat.le_of_lt (hlen s (hperm.subset hs)))
      (stableSortBy_digit_pairwise pos arr (fun s hs => hlen s hs) hs)

theorem radixSortALoop_eq (sc : Bool) (n : Nat) (arr : List Str)
    (hlen : ∀ s ∈ arr, n ≤ s.length) (hv : ValidBytes sc arr) :
    radixSortALoop sc n arr (List.replicate BUCKETS []) = some (lsdPasses n arr) := by
  induction n generalizing arr with
  | zero => rfl
  | succ pos ih =>
    have hlt : ∀ s ∈ arr, pos < s.length := fun s hs => hlen s hs
    have hperm := stableSortBy_perm (digit pos) BUCKETS arr (fun s _ => digit_lt pos s)
    rw [radixSortALoop, bucketPass_eq sc arr pos (digitsOk_of_valid hlt hv)]
    exact ih _ (fun s hs => Nat.le_of_lt (hlt s (hperm.subset hs)))
      (validBytes_of_perm hperm hv)

theorem countingStep_eq (sc : Bool) (pos : Nat) (st : Buffers)
    (hlen : st.output.length = st.input.length) (h : DigitsOk sc pos st.input) :
    ∃ st1, countingStep sc pos st = some st1 ∧
      st1.input = stableSortBy (digit pos) BUCKETS st.input ∧
      st1.output = st.input.map (fun _ => movedFrom) ∧
      st1.inIsArr = !st.inIsArr := by
  unfold countingStep
  rw [countingPass_eq sc pos _ _ hlen h]
  cases hb : st.inIsArr <;> simp [Buffers.input, Buffers.output, hb]

theorem countingLoop_spec (sc : Bool) (n : Nat) (st : Buffers)
    (hbuf : st.output.length = st.input.length)
    (hlen : ∀ s ∈ st.input, n ≤ s.length) (hv : ValidBytes sc st.input) :
    ∃ st1, countingLoop sc n st = some st1 ∧ st1.input = lsdPasses n st.input ∧
      st1.output.length = st.input.length ∧
      st1.inIsArr = (if n % 2 = 0 then st.inIsArr else !st.inIsArr) := by
  induction n generalizing st with
  | zero => exact ⟨st, rfl, rfl, hbuf, rfl⟩
  | succ pos ih =>
    have hlt : ∀ s ∈ st.input, pos < s.length := fun s hs => hlen s hs
    have hperm := stableSortBy_perm (digit pos) BUCKETS st.input (fun s _ => digit_lt pos s)
    obtain ⟨st1, hstep, hin, hout, hflag⟩ :=
      countingStep_eq sc pos st hbuf (digitsOk_of_valid hlt hv)
    obtain ⟨st2, hloop, hin2, hout2, hflag2⟩ := ih st1
      (by rw [hin, hout, List.length_map, hperm.length_eq])
      (by rw [hin]; exact fun s hs => Nat.le_of_lt (hlt s (hperm.subset hs)))
      (by rw [hin]; exact validBytes_of_perm hperm hv)
    refine ⟨st2, ?_, ?_, ?_, ?_⟩
    · rw [countingLoop, hstep]; exact hloop
    · rw [hin2, hin]; rfl
    · rw [hout2, hin, hperm.length_eq]
    · rw [hflag2, hflag]
      rcases Nat.mod_two_eq_zero_or_one pos with h0 | h1
      · have : (pos + 1) % 2 = 1 := by omega
        simp [h0, this]
      · have : (pos + 1) % 2 = 0 := by omega
        simp [h1, this]

theorem copyBack_spec (inp : List Str) (n i : Nat) (out : List Str)
    (hin : i + n ≤ inp.length) (hout : out.length = inp.length) :
    ∃ out1, copyBack inp n i out = some out1 ∧ out1.length = inp.length ∧
      ∀ j, out1[j]? = if i ≤ j ∧ j < i + n then inp[j]? else out[j]? := by
  induction n generalizing i out with
  | zero =>
    refine ⟨out, rfl, hout, fun j => ?_⟩
    rw [if_neg (by omega)]
  | succ n ih =>
    have hi : i < inp.length := by omega
    obtain ⟨out1, h1, h2, h3⟩ := ih (i + 1) (out.set i inp[i]) (by omega)
      (by rw [List.length_set, hout])
    refine ⟨out1, ?_, h2, fun j => ?_⟩
    · rw [copyBack, List.getElem?_eq_getElem hi]
      simp only
      rw [if_pos (by omega)]
      exact h1
    · rw [h3 j]
      by_cases hj : i = j
      · subst hj
        rw [if_neg (by omega), if_pos (by omega), List.getElem?_set_self (by omega),
          List.getElem?_eq_getElem hi]
      · rw [List.getElem?_set_ne hj]
        by_cases hj2 : i + 1 ≤ j ∧ j < i + 1 + n
        · rw [if_pos hj2, if_pos (by omega)]
        · rw [if_neg hj2, if_neg (by omega)]

theorem copyBack_all (inp out : List Str) (hout : out.length = inp.length) :
    copyBack inp inp.length 0 out = some inp := by
  obtain ⟨out1, h1, h2, h3⟩ := copyBack_spec inp inp.length 0 out (by omega) hout
  rw [h1]
  congr 1
  apply List.ext_getElem?
  intro j
  rw [h3 j]
  by_cases hj : j < inp.length
  · rw [if_pos (by omega)]
  · rw [if_neg (by omega), List.getElem?_eq_none (by omega), List.getElem?_eq_none (by omega)]

theorem tmod_two_natCast (L : Nat) : ((L : Int).tmod 2 = 1) ↔ L % 2 = 1 := by
  rw [show (2 : Int) = ((2 : Nat) : Int) from rfl, ← Int.ofNat_tmod]
  exact_mod_cast Iff.rfl

/-- `countingRadixSort` returns what the passes of `radixSortA` compute. -/
theorem countingRadixSort_eq (sc : Bool) (arr : List Str) (L : Nat)
    (hlen : ∀ s ∈ arr, L ≤ s.length) (hv : ValidBytes sc arr) :
    countingRadixSort sc arr (L : Int) = some (lsdPasses L arr) := by
  obtain ⟨st, hloop, hin, hout, hflag⟩ := countingLoop_spec sc L
    ⟨arr, List.replicate arr.length [], true⟩ (by simp [Buffers.input, Buffers.output])
    hlen hv
  replace hin : st.input = lsdPasses L arr := hin
  replace hout : st.output.length = arr.length := hout
  replace hflag : st.inIsArr = (if L % 2 = 0 then true else !true) := hflag
  unfold countingRadixSort
  rw [Int.toNat_ofNat, hloop]
  simp only
  have hplen : (lsdPasses L arr).length = arr.length := (lsdPasses_perm L arr).length_eq
  rcases Nat.mod_two_eq_zero_or_one L with h0 | h1
  · have hno : ¬ ((L : Int).tmod 2 = 1) := by rw [tmod_two_natCast]; omega
    rw [if_neg hno]
    have hf : st.inIsArr = true := by simpa [h0] using hflag
    simp [Buffers.input, hf] at hin
    rw [hin]
  · have hyes : (L : Int).tmod 2 = 1 := by rw [tmod_two_natCast]; exact h1
    rw [if_pos hyes]
    have hf : st.inIsArr = false := by simpa [h1] using hflag
    have harr : st.arr.length = st.input.length := by
      simp [Buffers.output, hf] at hout
      rw [hout, hin, hplen]
    rw [harr, copyBack_all st.input st.output (by rw [hout, hin, hplen])]
    simp [hf, hin]

theorem radixSortA_eq_lsdPasses (sc : Bool) (arr : List Str) (L : Nat)
    (hlen : ∀ s ∈ arr, L ≤ s.length) (hv : ValidBytes sc arr) :
    radixSortA sc arr (L : Int) = some (lsdPasses L arr) := by
  unfold radixSortA
  rw [Int.toNat_ofNat]
  exact radixSortALoop_eq sc L arr hlen hv

/-- On strings of length exactly `L` the passes produce the reference sort. -/
theorem lsdPasses_eq_referenceSort (arr : List Str) (L : Nat)
    (hlen : ∀ s ∈ arr, s.length = L) : lsdPasses L arr = referenceSort arr :=
  eq_referenceSort (lsdPasses_perm L arr)
    (pairwise_strLe_of_sufLe_zero
      (lsdPasses_pairwise L arr (fun s hs => Nat.le_of_eq (hlen s hs).symm)
        (pairwise_sufLe_of_length_le L arr (fun s hs => Nat.le_of_eq (hlen s hs)))))

/-! ## The variable-length sort -/

theorem distributeByLength_eq (l : List Str) (bk : List (List Str))
    (h : ∀ s ∈ l, s.length < bk.length) :
    distributeByLength l bk = some (distributeBy List.length l bk) := by
  induction l generalizing bk with
  | nil => rfl
  | cons s rest ih =>
    rw [distributeByLength, if_pos (h s (List.mem_cons_self _ _)),
      ih _ (fun t ht => by rw [length_pushBack]; exact h t (List.mem_cons_of_mem _ ht))]
    rfl

theorem distributeBy_length_replicate (arr : List Str) (n : Nat) :
    distributeBy List.length arr (List.replicate n []) = (List.range n).map (byLength arr) := by
  rw [replicate_eq_map_range, distributeBy_map_range]
  simp [byLength]

/-- The length-bucketing step of `radixSort`, for `maxLen` below `INT_MAX`: the array
becomes the stable sort by length, and `wordsByLength[n]` is left with as many
moved-from strings as there are strings of length `n`. -/
theorem lengthBucket_eq (arr : List Str) (M : Nat) (hlen : ∀ s ∈ arr, s.length ≤ M)
    (hmax : (M : Int) < INT_MAX) :
    lengthBucket arr (M : Int)
      = some (stableSortBy List.length (M + 1) arr,
          movedOut ((List.range (M + 1)).map (byLength arr))) := by
  have hov : ¬ (INT_MAX < (M : Int) + 1) := by omega
  have hneg : ¬ ((M : Int) + 1 < 0) := by omega
  have hnat : ((M : Int) + 1).toNat = M + 1 := by omega
  unfold lengthBucket
  rw [if_neg hov, if_neg hneg, hnat,
    distributeByLength_eq arr _ (fun s hs => by
      rw [List.length_replicate]; exact Nat.lt_succ_of_le (hlen s hs))]
  simp only
  have hfl := distributeBy_replicate List.length (M + 1) arr
  have hl : (stableSortBy List.length (M + 1) arr).length = arr.length :=
    (stableSortBy_perm _ _ arr (fun s hs => Nat.lt_succ_of_le (hlen s hs))).length_eq
  have hc := collect_eq (distributeBy List.length arr (List.replicate (M + 1) [])) []
    (arr.map (fun _ => movedFrom)) [] (by rw [hfl, hl]; simp)
  simp only [List.nil_append, List.append_nil, List.length_nil] at hc
  rw [hc]
  simp only [hfl]
  rw [distributeBy_length_replicate]

/-- One digit pass of `radixSort` on empty buckets leaves the first `startingIndex`
strings in place and stably sorts the rest by the byte at `pos`. -/
theorem radixSortPass_eq (sc : Bool) (pre active : List Str) (pos : Nat)
    (h : DigitsOk sc pos active) :
    radixSortPass sc (pre ++ active) (List.replicate BUCKETS []) (pre.length : Int) pos
      = some (pre ++ stableSortBy (digit pos) BUCKETS active, List.replicate BUCKETS []) := by
  have hneg : ¬ ((pre.length : Int) < 0) := by omega
  unfold radixSortPass
  rw [if_neg hneg]
  simp only [Int.toNat_ofNat, List.drop_left, List.take_left]
  rw [distribute_eq sc pos active _ (by simp) h]
  simp only
  have hfl := distributeBy_replicate (digit pos) BUCKETS active
  have hc := collect_eq (distributeBy (digit pos) active (List.replicate BUCKETS [])) pre
    (active.map (fun _ => movedFrom)) [] (by rw [hfl, length_stableSortBy_digit]; simp)
  simp only [List.append_nil] at hc
  rw [hc]
  simp only [hfl, cleared_eq, length_distributeBy, List.length_replicate]

theorem byLength_append_longer_perm (l : List Str) (n : Nat) :
    (byLength l (n + 1) ++ l.filter (fun s => decide (n + 1 < s.length))).Perm
      (l.filter (fun s => decide (n < s.length))) := by
  unfold byLength
  induction l with
  | nil => simp
  | cons s rest ih =>
    rcases Nat.lt_trichotomy s.length (n + 1) with h | h | h
    · have h1 : (s.length == n + 1) = false := by simpa using Nat.ne_of_lt h
      have h2 : decide (n + 1 < s.length) = false := by simpa using Nat.le_of_lt h
      have h3 : decide (n < s.length) = false := by simpa using Nat.le_of_lt_succ h
      simp only [List.filter_cons, h1, h2, h3]
      simpa using ih
    · have h1 : (s.length == n + 1) = true := by simpa using h
      have h2 : decide (n + 1 < s.length) = false := by simpa using Nat.le_of_eq h
      have h3 : decide (n < s.length) = true := by simpa using (by omega : n < s.length)
      simp only [List.filter_cons, h1, h2, h3, if_true, List.cons_append]
      exact ih.cons _
    · have h1 : (s.length == n + 1) = false := by simpa using Nat.ne_of_gt h
      have h2 : decide (n + 1 < s.length) = true := by simpa using h
      have h3 : decide (n < s.length) = true := by simpa using (by omega : n < s.length)
      simp only [List.filter_cons, h1, h2, h3, if_true]
      exact List.perm_middle.trans (ih.cons _)

theorem varPasses_perm (arr0 : List Str) (n : Nat) (act : List Str)
    (hact : act.Perm (arr0.filter (fun s => decide (n < s.length)))) :
    (varPasses arr0 n act).Perm (arr0.filter (fun s => decide (0 < s.length))) := by
  induction n generalizing act with
  | zero => exact hact
  | succ pos ih =>
    refine ih _ ?_
    exact (stableSortBy_perm (digit pos) BUCKETS _ (fun s _ => digit_lt pos s)).trans
      ((hact.append_left _).trans (byLength_append_longer_perm arr0 pos))

theorem length_of_mem_active {arr0 act : List Str} {pos : Nat}
    (hact : act.Perm (arr0.filter (fun s => decide (pos + 1 < s.length))))
    {s : Str} (hs : s ∈ byLength arr0 (pos + 1) ++ act) : s ∈ arr0 ∧ pos < s.length := by
  rcases List.mem_append.mp hs with h | h
  · have := List.mem_filter.mp h
    have hl : s.length = pos + 1 := by simpa using this.2
    exact ⟨this.1, by omega⟩
  · have := List.mem_filter.mp (hact.subset h)
    have hl : pos + 1 < s.length := by simpa using this.2
    exact ⟨this.1, by omega⟩

theorem varPasses_pairwise (arr0 : List Str) (n : Nat) (act : List Str)
    (hact : act.Perm (arr0.filter (fun s => decide (n < s.length))))
    (hs : act.Pairwise (SufLe n)) : (varPasses arr0 n act).Pairwise (SufLe 0) := by
  induction n generalizing act with
  | zero => exact hs
  | succ pos ih =>
    refine ih _ ?_ ?_
    · exact (stableSortBy_perm (digit pos) BUCKETS _ (fun s _ => digit_lt pos s)).trans
        ((hact.append_left _).trans (byLength_append_longer_perm arr0 pos))
    · refine stableSortBy_digit_pairwise pos _ (fun s hs => (length_of_mem_active hact hs).2) ?_
      have hshort : ∀ a ∈ byLength arr0 (pos + 1), ∀ b : Str, SufLe (pos + 1) a b := by
        intro a ha b
        have hl : a.length = pos + 1 := by simpa using (List.mem_filter.mp ha).2
        simp [SufLe, List.drop_eq_nil_of_le (Nat.le_of_eq hl), strLe]
      rw [List.pairwise_append]
      refine ⟨?_, hs, fun a ha b _ => hshort a ha b⟩
      rw [List.pairwise_iff_forall_sublist]
      intro a b hab
      exact hshort a (hab.subset (by simp)) b

theorem getElem?_groups (arr0 : List Str) (M n : Nat) (hn : n ≤ M) :
    ((List.range (M + 1)).map (byLength arr0))[n]? = some (byLength arr0 n) := by
  rw [List.getElem?_map, List.getElem?_range (Nat.lt_succ_of_le hn)]
  rfl

theorem getElem?_words (arr0 : List Str) (M n : Nat) (hn : n ≤ M) :
    (movedOut ((List.range (M + 1)).map (byLength arr0)))[n]?
      = some ((byLength arr0 n).map (fun _ => movedFrom)) := by
  unfold movedOut
  rw [List.getElem?_map, List.getElem?_map, List.getElem?_range (Nat.lt_succ_of_le hn)]
  rfl

/-- The digit loop of `radixSort`: entered with the strings of length at most `n` in
front, by length, and the longer strings `act` behind them, it returns the empty strings
followed by the result of the passes on `act`. -/
theorem radixSortLoop_eq (sc : Bool) (arr0 : List Str) (M n : Nat) (act : List Str)
    (hn : n ≤ M) (hv : ValidBytes sc arr0)
    (hact : act.Perm (arr0.filter (fun s => decide (n < s.length)))) :
    radixSortLoop sc (movedOut ((List.range (M + 1)).map (byLength arr0))) n
        (stableSortBy List.length (n + 1) arr0 ++ act) (List.replicate BUCKETS [])
        ((stableSortBy List.length (n + 1) arr0).length : Int)
      = some (stableSortBy List.length 1 arr0 ++ varPasses arr0 n act) := by
  induction n generalizing act with
  | zero => rfl
  | succ pos ih =>
    have hstart : ((stableSortBy List.length (pos + 1 + 1) arr0).length : Int)
        - (((byLength arr0 (pos + 1)).map (fun _ => movedFrom)).length : Int)
        = ((stableSortBy List.length (pos + 1) arr0).length : Int) := by
      rw [List.length_map, stableSortBy_succ List.length (pos + 1) arr0, List.length_append]
      simp [byLength]
    have harr : stableSortBy List.length (pos + 1 + 1) arr0 ++ act
        = stableSortBy List.length (pos + 1) arr0 ++ (byLength arr0 (pos + 1) ++ act) := by
      rw [stableSortBy_succ List.length (pos + 1) arr0, List.append_assoc]
      rfl
    have hok : DigitsOk sc pos (byLength arr0 (pos + 1) ++ act) := by
      refine digitsOk_of_valid (fun s hs => (length_of_mem_active hact hs).2) ?_
      exact fun s hs => hv s (length_of_mem_active hact hs).1
    rw [radixSortLoop, getElem?_words arr0 M (pos + 1) hn]
    simp only
    rw [hstart, harr, radixSortPass_eq sc _ _ pos hok]
    simp only
    exact ih _ (by omega)
      ((stableSortBy_perm (digit pos) BUCKETS _ (fun s _ => digit_lt pos s)).trans
        ((hact.append_left _).trans (byLength_append_longer_perm arr0 pos)))

theorem filter_longer_eq_nil (arr : List Str) (M : Nat) (hlen : ∀ s ∈ arr, s.length ≤ M) :
    arr.filter (fun s => decide (M < s.length)) = [] := by
  rw [List.filter_eq_nil_iff]
  intro s hs
  have := hlen s hs
  simp
  omega

theorem radixSort_eq_varSorted (sc : Bool) (arr : List Str) (M : Nat)
    (hlen : ∀ s ∈ arr, s.length ≤ M) (hv : ValidBytes sc arr)
    (hmax : (M : Int) < INT_MAX) :
    radixSort sc arr (M : Int) = some (varSorted arr M) := by
  unfold radixSort
  rw [lengthBucket_eq arr M hlen hmax]
  simp only [Int.toNat_ofNat]
  have h := radixSortLoop_eq sc arr M M [] (Nat.le_refl _) hv
    (by rw [filter_longer_eq_nil arr M hlen])
  rw [List.append_nil] at h
  exact h

theorem varSorted_perm (arr : List Str) (M : Nat) (hlen : ∀ s ∈ arr, s.length ≤ M) :
    (varSorted arr M).Perm arr := by
  have h1 := varPasses_perm arr M [] (by rw [filter_longer_eq_nil arr M hlen])
  have h2 := stableSortBy_perm_filter List.length 1 arr
  have h3 : (arr.filter (fun s => decide (s.length < 1))
      ++ arr.filter (fun s => decide (0 < s.length))).Perm arr := by
    have := List.filter_append_perm (fun s => decide (s.length < 1)) arr
    have heq : (fun s : Str => !decide (s.length < 1)) = (fun s => decide (0 < s.length)) := by
      funext s
      rcases Nat.lt_or_ge s.length 1 with h | h
      · rw [decide_eq_true h, decide_eq_false (by omega : ¬ 0 < s.length)]; rfl
      · rw [decide_eq_false (by omega : ¬ s.length < 1), decide_eq_true (by omega : 0 < s.length)]
        rfl
    rwa [heq] at this
  exact (h2.append h1).trans h3

theorem varSorted_pairwise (arr : List Str) (M : Nat) (hlen : ∀ s ∈ arr, s.length ≤ M) :
    (varSorted arr M).Pairwise StrLe := by
  unfold varSorted
  rw [List.pairwise_append]
  have hempty : ∀ a ∈ stableSortBy List.length 1 arr, a = [] := by
    intro a ha
    have := List.mem_filter.mp ((stableSortBy_perm_filter List.length 1 arr).subset ha)
    have hl : a.length < 1 := by simpa using this.2
    exact List.length_eq_zero.mp (by omega)
  refine ⟨?_, ?_, ?_⟩
  · rw [List.pairwise_iff_forall_sublist]
    intro a b hab
    rw [hempty a (hab.subset (by simp))]
    rfl
  · exact pairwise_strLe_of_sufLe_zero
      (varPasses_pairwise arr M [] (by rw [filter_longer_eq_nil arr M hlen]) List.Pairwise.nil)
  · intro a ha b _
    rw [hempty a ha]
    rfl

theorem varSorted_eq_referenceSort (arr : List Str) (M : Nat)
    (hlen : ∀ s ∈ arr, s.length ≤ M) : varSorted arr M = referenceSort arr :=
  eq_referenceSort (varSorted_perm arr M hlen) (varSorted_pairwise arr M hlen)

/-! ## Bytes that cannot be used as a subscript -/

theorem vecIndex_charToInt_none {c : Byte} {size : Nat} (h : 128 ≤ c.val) :
    vecIndex (charToInt true c) size = none := by
  have hneg : charToInt true c < 0 := by
    unfold charToInt
    have := c.isLt
    simp only [Bool.true_and, decide_eq_true_eq, h, if_true]
    omega
  unfold vecIndex
  rw [if_neg (by omega)]

theorem not_digitsOk_cons {sc : Bool} {pos : Nat} {s : Str} {rest : List Str}
    (hlen : pos < s.length) (hs : sc = true → (s.getD pos 0).val < 128)
    (h : ¬ DigitsOk sc pos (s :: rest)) : ¬ DigitsOk sc pos rest := by
  intro hrest
  apply h
  intro t ht
  rcases List.mem_cons.mp ht with rfl | ht
  · exact ⟨hlen, hs⟩
  · exact hrest t ht

theorem distribute_none (sc : Bool) (pos : Nat) (l : List Str) (bk : List (List Str))
    (hbk : bk.length = BUCKETS) (hlen : ∀ s ∈ l, pos < s.length) (h : ¬ DigitsOk sc pos l) :
    distribute sc pos l bk = none := by
  induction l generalizing bk with
  | nil => exact absurd (fun s hs => by simp at hs) h
  | cons s rest ih =>
    have hs := hlen s (List.mem_cons_self _ _)
    rw [distribute, charAt_of_lt hs]
    by_cases hv : sc = true → (s.getD pos 0).val < 128
    · have hlt : (s.getD pos 0).val < bk.length := by
        rw [hbk]; exact (s.getD pos 0).isLt
      simp only [charToInt_of_valid hv, vecIndex_of_lt hlt]
      exact ih _ (by rw [length_pushBack, hbk])
        (fun t ht => hlen t (List.mem_cons_of_mem _ ht)) (not_digitsOk_cons hs hv h)
    · have hsc : sc = true := by
        cases sc with
        | false => exact absurd (fun h => Bool.noConfusion h) hv
        | true => rfl
      subst hsc
      have hge : 128 ≤ (s.getD pos 0).val := by
        have : ¬ (s.getD pos 0).val < 128 := fun hh => hv (fun _ => hh)
        omega
      simp only [vecIndex_charToInt_none hge]

theorem place_none (sc : Bool) (pos : Nat) (l : List Str) (count : List Nat)
    (out : List Str) (hc : count.length = BUCKETS + 1) (hlen : ∀ s ∈ l, pos < s.length)
    (h : ¬ DigitsOk sc pos l) : place sc pos l count out = none := by
  induction l generalizing count out with
  | nil => exact absurd (fun s hs => by simp at hs) h
  | cons s rest ih =>
    have hs := hlen s (List.mem_cons_self _ _)
    rw [place, charAt_of_lt hs]
    by_cases hv : sc = true → (s.getD pos 0).val < 128
    · have hlt : (s.getD pos 0).val < count.length := by
        have := digit_lt pos s
        unfold digit at this
        omega
      simp only [charToInt_of_valid hv, vecIndex_of_lt hlt]
      split
      · exact ih _ _ (by rw [length_incr, hc])
          (fun t ht => hlen t (List.mem_cons_of_mem _ ht)) (not_digitsOk_cons hs hv h)
      · rfl
    · have hsc : sc = true := by
        cases sc with
        | false => exact absurd (fun h => Bool.noConfusion h) hv
        | true => rfl
      subst hsc
      have hge : 128 ≤ (s.getD pos 0).val := by
        have : ¬ (s.getD pos 0).val < 128 := fun hh => hv (fun _ => hh)
        omega
      simp only [vecIndex_charToInt_none hge]

theorem length_of_countDigits {sc : Bool} {pos : Nat} {l : List Str} {c c1 : List Nat}
    (h : countDigits sc pos l c = some c1) : c1.length = c.length := by
  induction l generalizing c with
  | nil => simp [countDigits] at h; rw [← h]
  | cons s rest ih =>
    rw [countDigits] at h
    split at h
    · exact absurd h (by simp)
    · split at h
      · exact absurd h (by simp)
      · rw [ih h, length_incr]

theorem length_prefixSums (c : List Nat) : (prefixSums c).length = c.length := by
  unfold prefixSums
  generalize List.range' 1 BUCKETS = bs
  induction bs generalizing c with
  | nil => rfl
  | cons b bs ih => rw [List.foldl_cons, ih, List.length_set]

theorem countingPass_none (sc : Bool) (pos : Nat) (inp out : List Str)
    (hlen : ∀ s ∈ inp, pos < s.length) (h : ¬ DigitsOk sc pos inp) :
    countingPass sc pos inp out = none := by
  unfold countingPass
  cases hcd : countDigits sc pos inp (List.replicate (BUCKETS + 1) 0) with
  | none => rfl
  | some count =>
    simp only
    rw [place_none sc pos inp _ out
      (by rw [length_prefixSums, length_of_countDigits hcd, List.length_replicate]) hlen h]

theorem bucketPass_none (sc : Bool) (arr : List Str) (pos : Nat)
    (hlen : ∀ s ∈ arr, pos < s.length) (h : ¬ DigitsOk sc pos arr) :
    bucketPass sc arr (List.replicate BUCKETS []) pos = none := by
  unfold bucketPass
  rw [distribute_none sc pos arr _ (by simp) hlen h]

theorem digitsOk_of_perm {sc : Bool} {pos : Nat} {a b : List Str} (hp : a.Perm b) :
    DigitsOk sc pos a ↔ DigitsOk sc pos b :=
  ⟨fun h s hs => h s (hp.symm.subset hs), fun h s hs => h s (hp.subset hs)⟩

theorem radixSortALoop_none (sc : Bool) (n : Nat) (arr : List Str)
    (hlen : ∀ s ∈ arr, n ≤ s.length) (h : ∃ p, p < n ∧ ¬ DigitsOk sc p arr) :
    radixSortALoop sc n arr (List.replicate BUCKETS []) = none := by
  induction n generalizing arr with
  | zero => obtain ⟨p, hp, _⟩ := h; omega
  | succ pos ih =>
    have hlt : ∀ s ∈ arr, pos < s.length := fun s hs => hlen s hs
    rw [radixSortALoop]
    by_cases hok : DigitsOk sc pos arr
    · have hperm := stableSortBy_perm (digit pos) BUCKETS arr (fun s _ => digit_lt pos s)
      rw [bucketPass_eq sc arr pos hok]
      refine ih _ (fun s hs => Nat.le_of_lt (hlt s (hperm.subset hs))) ?_
      obtain ⟨p, hp, hbad⟩ := h
      have hne : p ≠ pos := fun e => hbad (e ▸ hok)
      exact ⟨p, by omega, fun hh => hbad ((digitsOk_of_perm hperm).mp hh)⟩
    · rw [bucketPass_none sc arr pos hlt hok]

theorem countingLoop_none (sc : Bool) (n : Nat) (st : Buffers)
    (hbuf : st.output.length = st.input.length)
    (hlen : ∀ s ∈ st.input, n ≤ s.length) (h : ∃ p, p < n ∧ ¬ DigitsOk sc p st.input) :
    countingLoop sc n st = none := by
  induction n generalizing st with
  | zero => obtain ⟨p, hp, _⟩ := h; omega
  | succ pos ih =>
    have hlt : ∀ s ∈ st.input, pos < s.length := fun s hs => hlen s hs
    rw [countingLoop]
    by_cases hok : DigitsOk sc pos st.input
    · have hperm := stableSortBy_perm (digit pos) BUCKETS st.input (fun s _ => digit_lt pos s)
      obtain ⟨st1, hstep, hin, hout, _⟩ := countingStep_eq sc pos st hbuf hok
      rw [hstep]
      refine ih st1 (by rw [hin, hout, List.length_map, hperm.length_eq])
        (by rw [hin]; exact fun s hs => Nat.le_of_lt (hlt s (hperm.subset hs))) ?_
      obtain ⟨p, hp, hbad⟩ := h
      have hne : p ≠ pos := fun e => hbad (e ▸ hok)
      exact ⟨p, by omega, fun hh => hbad (by rw [hin] at hh; exact (digitsOk_of_perm hperm).mp hh)⟩
    · unfold countingStep
      rw [countingPass_none sc pos _ _ hlt hok]

/-- With every string of length `L`, a byte that is not usable as a subscript shows up
as a bad digit at some position below `L`. -/
theorem exists_bad_digit {sc : Bool} {arr : List Str} {L : Nat}
    (hlen : ∀ s ∈ arr, s.length = L) (h : ¬ ValidBytes sc arr) :
    ∃ p, p < L ∧ ¬ DigitsOk sc p arr := by
  unfold ValidBytes at h
  push_neg at h
  obtain ⟨s, hs, c, hc, hsc, hge⟩ := h
  obtain ⟨p, hp, hpc⟩ := List.getElem_of_mem hc
  refine ⟨p, by rw [← hlen s hs]; exact hp, fun hok => ?_⟩
  have := (hok s hs).2 hsc
  rw [List.getD_eq_getElem _ _ hp, hpc] at this
  omega

/-- On strings of length exactly `L` the two fixed-length sorts have the same outcome,
defined or not. -/
theorem radixSortA_eq_countingRadixSort (sc : Bool) (arr : List Str) (L : Nat)
    (hlen : ∀ s ∈ arr, s.length = L) :
    radixSortA sc arr (L : Int) = countingRadixSort sc arr (L : Int) := by
  have hle : ∀ s ∈ arr, L ≤ s.length := fun s hs => Nat.le_of_eq (hlen s hs).symm
  by_cases hv : ValidBytes sc arr
  · rw [radixSortA_eq_lsdPasses sc arr L hle hv, countingRadixSort_eq sc arr L hle hv]
  · have hbad := exists_bad_digit hlen hv
    have h1 : radixSortA sc arr (L : Int) = none := by
      unfold radixSortA
      rw [Int.toNat_ofNat]
      exact radixSortALoop_none sc L arr hle hbad
    have h2 : countingRadixSort sc arr (L : Int) = none := by
      unfold countingRadixSort
      rw [Int.toNat_ofNat, countingLoop_none sc L ⟨arr, List.replicate arr.length [], true⟩
        (by simp [Buffers.input, Buffers.output]) hle hbad]
    rw [h1, h2]

/-! ## Further properties of the stable sort and of the order -/

theorem stableSortBy_pairwise_key (key : Str → Nat) (n : Nat) (l : List Str) :
    (stableSortBy key n l).Pairwise (fun a b => key a ≤ key b) := by
  unfold stableSortBy
  rw [List.pairwise_flatten]
  constructor
  · intro l1 hl1
    obtain ⟨b, _, rfl⟩ := List.mem_map.mp hl1
    refine List.Pairwise.imp_of_mem ?_
      (List.pairwise_of_forall (l := l.filter (fun s => key s == b))
        (R := fun _ _ => True) (fun _ _ => trivial))
    intro x y hx hy _
    have hxb : key x = b := by simpa using (List.mem_filter.mp hx).2
    have hyb : key y = b := by simpa using (List.mem_filter.mp hy).2
    omega
  · rw [List.pairwise_map]
    refine (List.pairwise_lt_range n).imp ?_
    intro b1 b2 hlt x hx y hy
    have hxb : key x = b1 := by simpa using (List.mem_filter.mp hx).2
    have hyb : key y = b2 := by simpa using (List.mem_filter.mp hy).2
    omega

theorem filter_filter_key (key : Str → Nat) (l : List Str) (b n : Nat) :
    (l.filter (fun s => key s == n)).filter (fun s => key s == b)
      = if b = n then l.filter (fun s => key s == b) else [] := by
  rw [List.filter_filter]
  by_cases hbn : b = n
  · subst hbn
    rw [if_pos rfl]
    apply List.filter_congr
    intro s _
    simp
  · rw [if_neg hbn, List.filter_eq_nil_iff]
    intro s _
    simp only [Bool.and_eq_true, beq_iff_eq, not_and]
    intro h1 h2
    exact hbn (h1.symm.trans h2)

theorem filter_stableSortBy_ite (key : Str → Nat) (n : Nat) (l : List Str) (b : Nat) :
    (stableSortBy key n l).filter (fun s => key s == b)
      = if b < n then l.filter (fun s => key s == b) else [] := by
  induction n with
  | zero => simp [stableSortBy]
  | succ n ih =>
    rw [stableSortBy_succ, List.filter_append, ih, filter_filter_key]
    by_cases h1 : b < n
    · rw [if_pos h1, if_neg (by omega), if_pos (by omega), List.append_nil]
    · by_cases h2 : b = n
      · rw [if_neg h1, if_pos h2, if_pos (by omega), List.nil_append]
      · rw [if_neg h1, if_neg h2, if_neg (by omega), List.append_nil]

/-- The stable sort keeps, for every key, the strings of that key in input order. -/
theorem filter_stableSortBy_digit (pos : Nat) (l : List Str) (b : Nat) :
    (stableSortBy (digit pos) BUCKETS l).filter (fun s => digit pos s == b)
      = l.filter (fun s => digit pos s == b) := by
  rw [filter_stableSortBy_ite]
  by_cases hb : b < BUCKETS
  · rw [if_pos hb]
  · rw [if_neg hb, eq_comm, List.filter_eq_nil_iff]
    intro s _
    have := digit_lt pos s
    simp only [beq_iff_eq]
    omega

theorem strLe_append_right (a t : Str) : strLe a (a ++ t) = true := by
  induction a with
  | nil => rfl
  | cons x xs ih => simp [strLe, ih]

theorem referenceSort_eq_self {arr : List Str} (h : arr.Pairwise StrLe) :
    referenceSort arr = arr :=
  (eq_referenceSort (List.Perm.refl arr) h).symm

theorem referenceSort_perm (arr : List Str) : (referenceSort arr).Perm arr :=
  List.perm_insertionSort StrLe arr

theorem referenceSort_pairwise (arr : List Str) : (referenceSort arr).Pairwise StrLe := by
  haveI : IsTotal Str StrLe := ⟨strLe_total⟩
  haveI : IsTrans Str StrLe := ⟨fun _ _ _ => strLe_trans⟩
  exact List.sorted_insertionSort StrLe arr

theorem distributeByLength_none (l : List Str) (bk : List (List Str))
    (h : ∃ s ∈ l, bk.length ≤ s.length) : distributeByLength l bk = none := by
  induction l generalizing bk with
  | nil => obtain ⟨s, hs, _⟩ := h; simp at hs
  | cons t rest ih =>
    rw [distributeByLength]
    split
    · rename_i hlt
      obtain ⟨s, hs, hle⟩ := h
      rcases List.mem_cons.mp hs with rfl | hs
      · omega
      · exact ih _ ⟨s, hs, by rw [length_pushBack]; exact hle⟩
    · rfl

/-- A string longer than `maxLen` makes `wordsByLength[s.length()]` an out-of-range
subscript: `radixSort` has no defined result. -/
theorem radixSort_none_of_long (sc : Bool) (arr : List Str) (M : Nat)
    (h : ∃ s ∈ arr, M < s.length) : radixSort sc arr (M : Int) = none := by
  have hneg : ¬ ((M : Int) + 1 < 0) := by omega
  have hnat : ((M : Int) + 1).toNat = M + 1 := by omega
  obtain ⟨s, hs, hlt⟩ := h
  unfold radixSort lengthBucket
  by_cases hov : INT_MAX < (M : Int) + 1
  · rw [if_pos hov]
  · rw [if_neg hov, if_neg hneg, hnat,
      distributeByLength_none arr _ ⟨s, hs, by rw [List.length_replicate]; omega⟩]

theorem validBytes_true_of_lt {arr : List Str} (h : ∀ s ∈ arr, ∀ c ∈ s, c.val < 128)
    (sc : Bool) : ValidBytes sc arr :=
  fun s hs c hc _ => h s hs c hc

theorem validBytes_false (arr : List Str) : ValidBytes false arr :=
  fun _ _ _ _ h => Bool.noConfusion h

theorem radixSortA_eq_referenceSort (sc : Bool) (arr : List Str) (L : Nat)
    (hlen : ∀ s ∈ arr, s.length = L) (hv : ValidBytes sc arr) :
    radixSortA sc arr (L : Int) = some (referenceSort arr) := by
  rw [radixSortA_eq_lsdPasses sc arr L (fun s hs => Nat.le_of_eq (hlen s hs).symm) hv,
    lsdPasses_eq_referenceSort arr L hlen]

theorem countingRadixSort_eq_referenceSort (sc : Bool) (arr : List Str) (L : Nat)
    (hlen : ∀ s ∈ arr, s.length = L) (hv : ValidBytes sc arr) :
    countingRadixSort sc arr (L : Int) = some (referenceSort arr) := by
  rw [countingRadixSort_eq sc arr L (fun s hs => Nat.le_of_eq (hlen s hs).symm) hv,
    lsdPasses_eq_referenceSort arr L hlen]

theorem radixSort_eq_referenceSort (sc : Bool) (arr : List Str) (M : Nat)
    (hlen : ∀ s ∈ arr, s.length ≤ M) (hv : ValidBytes sc arr)
    (hmax : (M : Int) < INT_MAX) :
    radixSort sc arr (M : Int) = some (referenceSort arr) := by
  rw [radixSort_eq_varSorted sc arr M hlen hv hmax, varSorted_eq_referenceSort arr M hlen]


/-! ## The loops cut short -/

theorem radixSortALoop_eq_bind (sc : Bool) (stop n : Nat) (arr : List Str)
    (bk : List (List Str)) (h : stop ≤ n) :
    radixSortALoop sc n arr bk
      = (radixSortALoopTo sc stop n arr bk).bind (fun p => radixSortALoop sc stop p.1 p.2) := by
  induction n generalizing arr bk with
  | zero =>
    have : stop = 0 := by omega
    subst this
    rfl
  | succ pos ih =>
    rw [radixSortALoopTo]
    by_cases hs : pos + 1 ≤ stop
    · have : stop = pos + 1 := by omega
      subst this
      rw [if_pos (Nat.le_refl _)]
      rfl
    · rw [if_neg hs, radixSortALoop]
      cases bucketPass sc arr bk pos with
      | none => rfl
      | some p => exact ih p.1 p.2 (by omega)

theorem lsdPassesTo_zero (n : Nat) (arr : List Str) : lsdPassesTo 0 n arr = lsdPasses n arr := by
  induction n generalizing arr with
  | zero => rfl
  | succ pos ih => rw [lsdPassesTo, if_neg (by omega), lsdPasses, ih]

theorem lsdPassesTo_perm (stop n : Nat) (arr : List Str) :
    (lsdPassesTo stop n arr).Perm arr := by
  induction n generalizing arr with
  | zero => exact List.Perm.refl _
  | succ pos ih =>
    rw [lsdPassesTo]
    split
    · exact List.Perm.refl _
    · exact (ih _).trans
        (stableSortBy_perm (digit pos) BUCKETS arr (fun s _ => digit_lt pos s))

theorem lsdPassesTo_pairwise (stop n : Nat) (arr : List Str) (hstop : stop ≤ n)
    (hlen : ∀ s ∈ arr, n ≤ s.length) (hs : arr.Pairwise (SufLe n)) :
    (lsdPassesTo stop n arr).Pairwise (SufLe stop) := by
  induction n generalizing arr with
  | zero =>
    have : stop = 0 := by omega
    subst this
    exact hs
  | succ pos ih =>
    rw [lsdPassesTo]
    by_cases h : pos + 1 ≤ stop
    · have : stop = pos + 1 := by omega
      subst this
      rw [if_pos (Nat.le_refl _)]
      exact hs
    · rw [if_neg h]
      have hperm := stableSortBy_perm (digit pos) BUCKETS arr (fun s _ => digit_lt pos s)
      exact ih _ (by omega) (fun s hs => Nat.le_of_lt (hlen s (hperm.subset hs)))
        (stableSortBy_digit_pairwise pos arr (fun s hs => hlen s hs) hs)

theorem radixSortALoopTo_eq (sc : Bool) (stop n : Nat) (arr : List Str)
    (hlen : ∀ s ∈ arr, n ≤ s.length) (hv : ValidBytes sc arr) :
    radixSortALoopTo sc stop n arr (List.replicate BUCKETS [])
      = some (lsdPassesTo stop n arr, List.replicate BUCKETS []) := by
  induction n generalizing arr with
  | zero => rfl
  | succ pos ih =>
    rw [radixSortALoopTo, lsdPassesTo]
    by_cases h : pos + 1 ≤ stop
    · rw [if_pos h, if_pos h]
    · rw [if_neg h, if_neg h]
      have hlt : ∀ s ∈ arr, pos < s.length := fun s hs => hlen s hs
      have hperm := stableSortBy_perm (digit pos) BUCKETS arr (fun s _ => digit_lt pos s)
      rw [bucketPass_eq sc arr pos (digitsOk_of_valid hlt hv)]
      exact ih _ (fun s hs => Nat.le_of_lt (hlt s (hperm.subset hs)))
        (validBytes_of_perm hperm hv)

theorem countingLoop_eq_bind (sc : Bool) (stop n : Nat) (st : Buffers) (h : stop ≤ n) :
    countingLoop sc n st = (countingLoopTo sc stop n st).bind (countingLoop sc stop) := by
  induction n generalizing st with
  | zero =>
    have : stop = 0 := by omega
    subst this
    rfl
  | succ pos ih =>
    rw [countingLoopTo]
    by_cases hs : pos + 1 ≤ stop
    · have : stop = pos + 1 := by omega
      subst this
      rw [if_pos (Nat.le_refl _)]
      rfl
    · rw [if_neg hs, countingLoop]
      cases countingStep sc pos st with
      | none => rfl
      | some st1 => exact ih st1 (by omega)

theorem countingLoopTo_spec (sc : Bool) (stop n : Nat) (st : Buffers)
    (hbuf : st.output.length = st.input.length)
    (hlen : ∀ s ∈ st.input, n ≤ s.length) (hv : ValidBytes sc st.input) :
    ∃ st1, countingLoopTo sc stop n st = some st1 ∧
      st1.input = lsdPassesTo stop n st.input ∧
      st1.output.length = st.input.length ∧ st1.input.length = st.input.length ∧
      st1.inIsArr = (if (n - stop) % 2 = 0 then st.inIsArr else !st.inIsArr) := by
  induction n generalizing st with
  | zero => exact ⟨st, rfl, rfl, hbuf, rfl, by simp⟩
  | succ pos ih =>
    rw [countingLoopTo, lsdPassesTo]
    by_cases hs : pos + 1 ≤ stop
    · rw [if_pos hs, if_pos hs]
      have h0 : (pos + 1 - stop) % 2 = 0 := by
        have : pos + 1 - stop = 0 := by omega
        rw [this]
      exact ⟨st, rfl, rfl, hbuf, rfl, by rw [if_pos h0]⟩
    · rw [if_neg hs, if_neg hs]
      have hlt : ∀ s ∈ st.input, pos < s.length := fun s hs => hlen s hs
      have hperm := stableSortBy_perm (digit pos) BUCKETS st.input (fun s _ => digit_lt pos s)
      obtain ⟨st1, hstep, hin, hout, hflag⟩ :=
        countingStep_eq sc pos st hbuf (digitsOk_of_valid hlt hv)
      obtain ⟨st2, hloop, hin2, hout2, hlen2, hflag2⟩ := ih st1
        (by rw [hin, hout, List.length_map, hperm.length_eq])
        (by rw [hin]; exact fun s hs => Nat.le_of_lt (hlt s (hperm.subset hs)))
        (by rw [hin]; exact validBytes_of_perm hperm hv)
      refine ⟨st2, ?_, ?_, ?_, ?_, ?_⟩
      · rw [hstep]; exact hloop
      · rw [hin2, hin]
      · rw [hout2, hin, hperm.length_eq]
      · rw [hlen2, hin, hperm.length_eq]
      · rw [hflag2, hflag]
        have hsub : pos + 1 - stop = (pos - stop) + 1 := by omega
        rw [hsub]
        rcases Nat.mod_two_eq_zero_or_one (pos - stop) with h0 | h1
        · have : (pos - stop + 1) % 2 = 1 := by omega
          simp [h0, this]
        · have : (pos - stop + 1) % 2 = 0 := by omega
          simp [h1, this]

theorem countingLoop_one (sc : Bool) (st : Buffers) :
    countingLoop sc 1 st = countingStep sc 0 st := by
  rw [countingLoop]
  cases countingStep sc 0 st with
  | none => rfl
  | some st1 => rfl

theorem input_of_countingStep {sc : Bool} {pos : Nat} {st st1 : Buffers}
    (h : countingStep sc pos st = some st1) :
    ∃ out1 in1, countingPass sc pos st.input st.output = some (out1, in1) ∧
      st1.input = out1 ∧ st1.output = in1 := by
  unfold countingStep at h
  cases hp : countingPass sc pos st.input st.output with
  | none => rw [hp] at h; exact absurd h (by simp)
  | some p =>
    obtain ⟨out1, in1⟩ := p
    rw [hp] at h
    refine ⟨out1, in1, rfl, ?_, ?_⟩
    · cases hb : st.inIsArr <;> simp [hb] at h <;> rw [← h] <;> rfl
    · cases hb : st.inIsArr <;> simp [hb] at h <;> rw [← h] <;> rfl

/-- One counting pass and one bucket pass on the same input have the same outcome:
the same array, or no defined result for either. -/
theorem countingPass_fst_eq_bucketPass_fst (sc : Bool) (pos : Nat) (inp out : List Str)
    (hout : out.length = inp.length) (hlen : ∀ s ∈ inp, pos < s.length) :
    (countingPass sc pos inp out).map Prod.fst
      = (bucketPass sc inp (List.replicate BUCKETS []) pos).map Prod.fst := by
  by_cases hok : DigitsOk sc pos inp
  · rw [countingPass_eq sc pos inp out hout hok, bucketPass_eq sc inp pos hok]
    rfl
  · rw [countingPass_none sc pos inp out hlen hok, bucketPass_none sc inp pos hlen hok]
    rfl

theorem radixSortLoop_eq_bind (sc : Bool) (words : List (List Str)) (stop n : Nat)
    (arr : List Str) (bk : List (List Str)) (start : Int) (h : stop ≤ n) :
    radixSortLoop sc words n arr bk start
      = (radixSortLoopTo sc words stop n arr bk start).bind
          (fun p => radixSortLoop sc words stop p.1 p.2.1 p.2.2) := by
  induction n generalizing arr bk start with
  | zero =>
    have : stop = 0 := by omega
    subst this
    rfl
  | succ pos ih =>
    rw [radixSortLoopTo]
    by_cases hs : pos + 1 ≤ stop
    · have : stop = pos + 1 := by omega
      subst this
      rw [if_pos (Nat.le_refl _)]
      rfl
    · rw [if_neg hs, radixSortLoop]
      cases words[pos + 1]? with
      | none => rfl
      | some w =>
        simp only
        cases radixSortPass sc arr bk (start - (w.length : Int)) pos with
        | none => rfl
        | some p => exact ih p.1 p.2 _ (by omega)

theorem varPassesTo_zero (arr0 : List Str) (n : Nat) (act : List Str) :
    varPassesTo arr0 0 n act = varPasses arr0 n act := by
  induction n generalizing act with
  | zero => rfl
  | succ pos ih => rw [varPassesTo, if_neg (by omega), varPasses, ih]

theorem varPassesTo_perm (arr0 : List Str) (stop n : Nat) (act : List Str) (hstop : stop ≤ n)
    (hact : act.Perm (arr0.filter (fun s => decide (n < s.length)))) :
    (varPassesTo arr0 stop n act).Perm (arr0.filter (fun s => decide (stop < s.length))) := by
  induction n generalizing act with
  | zero =>
    have : stop = 0 := by omega
    subst this
    exact hact
  | succ pos ih =>
    rw [varPassesTo]
    by_cases h : pos + 1 ≤ stop
    · have : stop = pos + 1 := by omega
      subst this
      rw [if_pos (Nat.le_refl _)]
      exact hact
    · rw [if_neg h]
      exact ih _ (by omega)
        ((stableSortBy_perm (digit pos) BUCKETS _ (fun s _ => digit_lt pos s)).trans
          ((hact.append_left _).trans (byLength_append_longer_perm arr0 pos)))

theorem radixSortLoopTo_eq (sc : Bool) (arr0 : List Str) (M stop n : Nat) (act : List Str)
    (hn : n ≤ M) (hstop : stop ≤ n) (hv : ValidBytes sc arr0)
    (hact : act.Perm (arr0.filter (fun s => decide (n < s.length)))) :
    radixSortLoopTo sc (movedOut ((List.range (M + 1)).map (byLength arr0))) stop n
        (stableSortBy List.length (n + 1) arr0 ++ act) (List.replicate BUCKETS [])
        ((stableSortBy List.length (n + 1) arr0).length : Int)
      = some (stableSortBy List.length (stop + 1) arr0 ++ varPassesTo arr0 stop n act,
          List.replicate BUCKETS [],
          ((stableSortBy List.length (stop + 1) arr0).length : Int)) := by
  induction n generalizing act with
  | zero =>
    have : stop = 0 := by omega
    subst this
    rfl
  | succ pos ih =>
    rw [radixSortLoopTo, varPassesTo]
    by_cases h : pos + 1 ≤ stop
    · have : stop = pos + 1 := by omega
      subst this
      rw [if_pos (Nat.le_refl _), if_pos (Nat.le_refl _)]
    · rw [if_neg h, if_neg h]
      have hstart : ((stableSortBy List.length (pos + 1 + 1) arr0).length : Int)
          - (((byLength arr0 (pos + 1)).map (fun _ => movedFrom)).length : Int)
          = ((stableSortBy List.length (pos + 1) arr0).length : Int) := by
        rw [List.length_map, stableSortBy_succ List.length (pos + 1) arr0, List.length_append]
        simp [byLength]
      have harr : stableSortBy List.length (pos + 1 + 1) arr0 ++ act
          = stableSortBy List.length (pos + 1) arr0 ++ (byLength arr0 (pos + 1) ++ act) := by
        rw [stableSortBy_succ List.length (pos + 1) arr0, List.append_assoc]
        rfl
      have hok : DigitsOk sc pos (byLength arr0 (pos + 1) ++ act) := by
        refine digitsOk_of_valid (fun s hs => (length_of_mem_active hact hs).2) ?_
        exact fun s hs => hv s (length_of_mem_active hact hs).1
      rw [getElem?_words arr0 M (pos + 1) hn]
      simp only
      rw [hstart, harr, radixSortPass_eq sc _ _ pos hok]
      simp only
      exact ih _ (by omega) (by omega)
        ((stableSortBy_perm (digit pos) BUCKETS _ (fun s _ => digit_lt pos s)).trans
          ((hact.append_left _).trans (byLength_append_longer_perm arr0 pos)))

/-- The state of `radixSort` at the start of the pass at `pos`: the strings of length at
most `pos` in front, by length, then the strings of length `pos + 1` in input order
followed by what the earlier passes made of the longer strings. -/
theorem passStart_eq (sc : Bool) (arr : List Str) (M pos : Nat)
    (hlen : ∀ s ∈ arr, s.length ≤ M) (hv : ValidBytes sc arr) (hpos : pos < M)
    (hmax : (M : Int) < INT_MAX) :
    passStart sc arr (M : Int) pos
      = some (stableSortBy List.length (pos + 1) arr
            ++ (byLength arr (pos + 1) ++ varPassesTo arr (pos + 1) M []),
          List.replicate BUCKETS [],
          ((stableSortBy List.length (pos + 1) arr).length : Int)) := by
  unfold passStart
  rw [lengthBucket_eq arr M hlen hmax]
  simp only [Int.toNat_ofNat]
  have h := radixSortLoopTo_eq sc arr M (pos + 1) M [] (Nat.le_refl _) hpos hv
    (by rw [filter_longer_eq_nil arr M hlen])
  rw [List.append_nil] at h
  rw [h]
  simp only
  rw [getElem?_words arr M (pos + 1) hpos]
  simp only
  have hstart : ((stableSortBy List.length (pos + 1 + 1) arr).length : Int)
      - (((byLength arr (pos + 1)).map (fun _ => movedFrom)).length : Int)
      = ((stableSortBy List.length (pos + 1) arr).length : Int) := by
    rw [List.length_map, stableSortBy_succ List.length (pos + 1) arr, List.length_append]
    simp [byLength]
  have harr : stableSortBy List.length (pos + 1 + 1) arr ++ varPassesTo arr (pos + 1) M []
      = stableSortBy List.length (pos + 1) arr
          ++ (byLength arr (pos + 1) ++ varPassesTo arr (pos + 1) M []) := by
    rw [stableSortBy_succ List.length (pos + 1) arr, List.append_assoc]
    rfl
  rw [hstart, harr]

theorem length_stableSortBy_length (arr : List Str) (n : Nat) :
    (stableSortBy List.length (n + 1) arr).length
      = (arr.filter (fun s => decide (s.length ≤ n))).length := by
  rw [(stableSortBy_perm_filter List.length (n + 1) arr).length_eq]
  congr 1
  apply List.filter_congr
  intro s _
  rcases Nat.lt_or_ge s.length (n + 1) with h | h
  · rw [decide_eq_true h, decide_eq_true (by omega : s.length ≤ n)]
  · rw [decide_eq_false (by omega : ¬ s.length < n + 1),
      decide_eq_false (by omega : ¬ s.length ≤ n)]

theorem length_le_of_mem_stableSortBy_length {arr : List Str} {n : Nat} {s : Str}
    (h : s ∈ stableSortBy List.length (n + 1) arr) : s ∈ arr ∧ s.length ≤ n := by
  have := List.mem_filter.mp ((stableSortBy_perm_filter List.length (n + 1) arr).subset h)
  have hl : s.length < n + 1 := by simpa using this.2
  exact ⟨this.1, by omega⟩

theorem active_perm (arr : List Str) (M pos : Nat) (hlen : ∀ s ∈ arr, s.length ≤ M)
    (hpos : pos < M) :
    (byLength arr (pos + 1) ++ varPassesTo arr (pos + 1) M []).Perm
      (arr.filter (fun s => decide (pos < s.length))) :=
  ((varPassesTo_perm arr (pos + 1) M [] hpos
      (by rw [filter_longer_eq_nil arr M hlen])).append_left _).trans
    (byLength_append_longer_perm arr pos)

/-! ## Fixed-length arrays in the variable-length sort -/

theorem byLength_of_fixed {arr : List Str} {L : Nat} (hlen : ∀ s ∈ arr, s.length = L) :
    byLength arr L = arr := by
  unfold byLength
  rw [List.filter_eq_self]
  intro s hs
  simpa using hlen s hs

theorem byLength_of_fixed_ne {arr : List Str} {L k : Nat} (hlen : ∀ s ∈ arr, s.length = L)
    (hk : k ≠ L) : byLength arr k = [] := by
  unfold byLength
  rw [List.filter_eq_nil_iff]
  intro s hs
  have := hlen s hs
  simp only [beq_iff_eq]
  omega

theorem stableSortBy_length_fixed {arr : List Str} {L : Nat}
    (hlen : ∀ s ∈ arr, s.length = L) : stableSortBy List.length (L + 1) arr = arr := by
  rw [stableSortBy_succ]
  have hnil : arr.filter (fun s => decide (s.length < L)) = [] := by
    rw [List.filter_eq_nil_iff]
    intro s hs
    have := hlen s hs
    simp only [decide_eq_true_eq]
    omega
  have h1 : stableSortBy List.length L arr = [] := by
    have hp := stableSortBy_perm_filter List.length L arr
    rw [hnil] at hp
    exact List.Perm.eq_nil hp
  rw [h1, List.nil_append]
  exact byLength_of_fixed hlen

theorem radixSortPass_zero (sc : Bool) (arr : List Str) (bk : List (List Str)) (pos : Nat) :
    radixSortPass sc arr bk 0 pos = bucketPass sc arr bk pos := by
  unfold radixSortPass bucketPass
  rw [if_neg (by omega)]
  rfl

theorem radixSortLoop_zero_start (sc : Bool) (words : List (List Str)) (n : Nat)
    (arr : List Str) (bk : List (List Str))
    (hw : ∀ k, 1 ≤ k → k ≤ n → ∃ w, words[k]? = some w ∧ w.length = 0) :
    radixSortLoop sc words n arr bk 0 = radixSortALoop sc n arr bk := by
  induction n generalizing arr bk with
  | zero => rfl
  | succ pos ih =>
    obtain ⟨w, hw1, hw2⟩ := hw (pos + 1) (by omega) (Nat.le_refl _)
    rw [radixSortLoop, radixSortALoop, hw1]
    simp only [hw2, Nat.cast_zero, sub_zero]
    rw [radixSortPass_zero]
    cases bucketPass sc arr bk pos with
    | none => rfl
    | some p => exact ih p.1 p.2 (fun k h1 h2 => hw k h1 (by omega))

/-- On strings of length exactly `L`, for `L` below `INT_MAX`, the variable-length sort
called with `maxLen = L` has the same outcome as `radixSortA` called with
`stringLen = L`. -/
theorem radixSort_eq_radixSortA (sc : Bool) (arr : List Str) (L : Nat)
    (hlen : ∀ s ∈ arr, s.length = L) (hmax : (L : Int) < INT_MAX) :
    radixSort sc arr (L : Int) = radixSortA sc arr (L : Int) := by
  unfold radixSort radixSortA
  rw [lengthBucket_eq arr L (fun s hs => Nat.le_of_eq (hlen s hs)) hmax,
    stableSortBy_length_fixed hlen]
  simp only [Int.toNat_ofNat]
  cases L with
  | zero => rfl
  | succ pos =>
    rw [radixSortLoop, radixSortALoop, getElem?_words arr (pos + 1) (pos + 1) (Nat.le_refl _)]
    simp only [byLength_of_fixed hlen, List.length_map, sub_self]
    rw [radixSortPass_zero]
    cases bucketPass sc arr (List.replicate BUCKETS []) pos with
    | none => rfl
    | some p =>
      refine radixSortLoop_zero_start sc _ pos p.1 p.2 (fun k h1 h2 => ?_)
      refine ⟨(byLength arr k).map (fun _ => movedFrom),
        getElem?_words arr (pos + 1) k (by omega), ?_⟩
      rw [byLength_of_fixed_ne hlen (by omega)]
      rfl

/-! ## The subscripts of the placement loop -/

theorem offset_eq_filter_lt (key : Str → Nat) (l : List Str) (b : Nat) :
    offset key l b = (l.filter (fun s => decide (key s < b))).length :=
  (stableSortBy_perm_filter key b l).length_eq

theorem place_fst_eq_writeAll (sc : Bool) (pos : Nat) (l : List Str) (count : List Nat)
    (out : List Str) :
    (place sc pos l count out).map Prod.fst
      = (placeIndices sc pos l count out.length).map (fun js => writeAll l js out) := by
  induction l generalizing count out with
  | nil => rfl
  | cons s rest ih =>
    rw [place, placeIndices]
    cases charAt s pos with
    | none => rfl
    | some c =>
      simp only
      cases vecIndex (charToInt sc c) count.length with
      | none => rfl
      | some d =>
        simp only
        by_cases hj : count.getD d 0 < out.length
        · rw [if_pos hj, if_pos hj, ih]
          rw [List.length_set]
          cases placeIndices sc pos rest (incr count d) out.length with
          | none => rfl
          | some js => rfl
        · rw [if_neg hj, if_neg hj]
          rfl

theorem placeIndices_spec (sc : Bool) (pos : Nat) (l : List Str) (rest pre : List Str)
    (hl : l = pre ++ rest) (count : List Nat) (hcl : count.length = BUCKETS + 1)
    (hc : ∀ d, d < BUCKETS →
      count.getD d 0 = offset (digit pos) l d + bucketSize (digit pos) pre d)
    (hok : DigitsOk sc pos rest) :
    ∃ js, placeIndices sc pos rest count l.length = some js ∧ js.length = rest.length ∧
      js.Nodup ∧
      ∀ j ∈ js, ∃ d, d < BUCKETS ∧
        offset (digit pos) l d + bucketSize (digit pos) pre d ≤ j ∧
        j < offset (digit pos) l d + bucketSize (digit pos) l d := by
  induction rest generalizing pre count with
  | nil => exact ⟨[], rfl, rfl, List.nodup_nil, fun j hj => by simp at hj⟩
  | cons s rest ih =>
    have hs := hok s (List.mem_cons_self _ _)
    have hd0 : digit pos s < BUCKETS := digit_lt pos s
    have hdlen : (s.getD pos 0).val < count.length := by
      have := hd0
      unfold digit at this
      omega
    have hsize : ∀ d, bucketSize (digit pos) l d
        = bucketSize (digit pos) pre d + bucketSize (digit pos) (s :: rest) d := by
      intro d; rw [hl, bucketSize_append]
    have hself := bucketSize_cons_self (digit pos) s rest
    have hfull : offset (digit pos) l BUCKETS = l.length := length_stableSortBy_digit pos l
    have hnext : ∀ d, d < BUCKETS → offset (digit pos) l d + bucketSize (digit pos) l d
        ≤ l.length := by
      intro d hd
      rw [← offset_succ, ← hfull]
      exact offset_mono _ _ (Nat.succ_le_of_lt hd)
    have hj : count.getD (digit pos s) 0 < l.length := by
      have h1 := hc _ hd0
      have h2 := hsize (digit pos s)
      have h3 := hnext _ hd0
      omega
    have hdl : digit pos s < count.length := by omega
    have hpre1 : ∀ d, bucketSize (digit pos) (pre ++ [s]) d
        = bucketSize (digit pos) pre d + (if d = digit pos s then 1 else 0) := by
      intro d
      rw [bucketSize_append]
      by_cases hdd : d = digit pos s
      · subst hdd; simp [bucketSize]
      · have hne : (digit pos s == d) = false := by simpa using fun e => hdd e.symm
        simp [bucketSize, List.filter_cons, hne, hdd]
    obtain ⟨js, hjs, hlenjs, hnd, hrange⟩ := ih (pre ++ [s]) (by simp [hl])
      (incr count (digit pos s)) (by rw [length_incr, hcl])
      (by
        intro d hd
        rw [getD_incr _ _ _ hdl, hpre1 d]
        by_cases hdd : d = digit pos s
        · subst hdd
          rw [if_pos rfl, if_pos rfl, hc _ hd]
          omega
        · rw [if_neg hdd, if_neg hdd, hc d hd]
          omega)
      (fun t ht => hok t (List.mem_cons_of_mem _ ht))
    refine ⟨count.getD (digit pos s) 0 :: js, ?_, by simp [hlenjs], ?_, ?_⟩
    · rw [placeIndices, charAt_of_lt hs.1]
      simp only [charToInt_of_valid hs.2, vecIndex_of_lt hdlen]
      have hj1 : count.getD (s.getD pos 0).val 0 < l.length := hj
      have hjs1 : placeIndices sc pos rest (incr count (s.getD pos 0).val) l.length
          = some js := hjs
      rw [if_pos hj1, hjs1]
      rfl
    · rw [List.nodup_cons]
      refine ⟨fun hmem => ?_, hnd⟩
      obtain ⟨d, hd, hlo, hhi⟩ := hrange _ hmem
      have h1 := hc _ hd0
      have h2 := hsize (digit pos s)
      have h3 := hsize d
      have h4 := hpre1 d
      rcases Nat.lt_trichotomy d (digit pos s) with hlt | heq | hgt
      · have h5 := offset_mono (digit pos) l (Nat.succ_le_of_lt hlt)
        rw [offset_succ] at h5
        omega
      · subst heq
        rw [if_pos rfl] at h4
        omega
      · have h5 := offset_mono (digit pos) l (Nat.succ_le_of_lt hgt)
        rw [offset_succ] at h5
        omega
    · intro j hjmem
      rcases List.mem_cons.mp hjmem with rfl | hjmem
      · have h1 := hc _ hd0
        have h2 := hsize (digit pos s)
        exact ⟨digit pos s, hd0, by omega, by omega⟩
      · obtain ⟨d, hd, hlo, hhi⟩ := hrange j hjmem
        have h4 := hpre1 d
        exact ⟨d, hd, by omega, hhi⟩

theorem perm_range_of_nodup {js : List Nat} {n : Nat} (hnd : js.Nodup)
    (hlt : ∀ j ∈ js, j < n) (hlen : js.length = n) : js.Perm (List.range n) := by
  have hsub : js ⊆ List.range n := fun j hj => List.mem_range.mpr (hlt j hj)
  exact (List.subperm_of_subset hnd hsub).perm_of_length_le
    (by rw [List.length_range, hlen])

/-- The placement loop of a pass, run on the table that the frequency and prefix-sum
loops leave, uses every subscript `0 .. N - 1` of the output buffer exactly once. -/
theorem placeIndices_pass (sc : Bool) (pos : Nat) (inp : List Str)
    (h : DigitsOk sc pos inp) :
    ∃ count js, countDigits sc pos inp (List.replicate (BUCKETS + 1) 0) = some count ∧
      placeIndices sc pos inp (prefixSums count) inp.length = some js ∧
      js.length = inp.length ∧ js.Nodup ∧ (∀ j ∈ js, j < inp.length) ∧
      js.Perm (List.range inp.length) := by
  obtain ⟨htl, htv⟩ := prefixSums_tally pos inp
  obtain ⟨js, hjs, hlen, hnd, hrange⟩ := placeIndices_spec sc pos inp inp [] rfl
    (prefixSums (tally pos inp (List.replicate (BUCKETS + 1) 0))) htl
    (fun d hd => by rw [htv d (Nat.le_of_lt hd)]; simp [bucketSize]) h
  have hlt : ∀ j ∈ js, j < inp.length := by
    intro j hj
    obtain ⟨d, hd, _, hhi⟩ := hrange j hj
    have hfull : offset (digit pos) inp BUCKETS = inp.length :=
      length_stableSortBy_digit pos inp
    have := offset_mono (digit pos) inp (Nat.succ_le_of_lt hd)
    rw [offset_succ] at this
    omega
  exact ⟨_, js, countDigits_eq sc pos inp _ (by simp) h, hjs, hlen, hnd, hlt,
    perm_range_of_nodup hnd hlt hlen⟩

/-- The run of `radixSort` goes through `passStart`: the call is the length-bucketing
step, the passes down to the state at the start of the pass at `pos`, that pass, and the
rest of the loop. -/
theorem radixSort_eq_passStart_bind (sc : Bool) (arr : List Str) (M pos : Nat)
    (hpos : pos < M) :
    radixSort sc arr (M : Int)
      = (lengthBucket arr (M : Int)).bind (fun lb =>
          (passStart sc arr (M : Int) pos).bind (fun p =>
            (radixSortPass sc p.1 p.2.1 p.2.2 pos).bind (fun q =>
              radixSortLoop sc lb.2 pos q.1 q.2 p.2.2))) := by
  unfold radixSort passStart
  cases lengthBucket arr (M : Int) with
  | none => rfl
  | some lb =>
    obtain ⟨arr0, words⟩ := lb
    simp only [Int.toNat_ofNat, Option.some_bind]
    rw [radixSortLoop_eq_bind sc words (pos + 1) M arr0 _ _ hpos]
    cases radixSortLoopTo sc words (pos + 1) M arr0 (List.replicate BUCKETS [])
        (arr0.length : Int) with
    | none => rfl
    | some p =>
      obtain ⟨arr1, bk1, st1⟩ := p
      simp only [Option.some_bind]
      rw [radixSortLoop]
      cases words[pos + 1]? with
      | none => rfl
      | some w =>
        simp only [Option.some_bind]
        cases radixSortPass sc arr1 bk1 (st1 - (w.length : Int)) pos with
        | none => rfl
        | some q => rfl
/-! ## The claims of the specification -/

set_option maxRecDepth 100000

/-- C1 (amended): `radixSortA` on strings of length exactly `L` whose bytes are usable
as subscripts (any byte when plain `char` is unsigned, the bytes `0..127` when it is
signed) returns the reference sort of the array, which is in ascending byte-wise
lexicographic order and a permutation of the input; `["dba","aaa","abc"]` with
`stringLen = 3` becomes `["aaa","abc","dba"]`. -/
theorem C1_radixSortA_sorts (sc : Bool) (arr : List Str) (L : Nat)
    (hlen : ∀ s ∈ arr, s.length = L) (hv : ValidBytes sc arr) :
    radixSortA sc arr (L : Int) = some (referenceSort arr) ∧
    (referenceSort arr).Pairwise StrLe ∧ (referenceSort arr).Perm arr ∧
    radixSortA sc [[100, 98, 97], [97, 97, 97], [97, 98, 99]] 3
      = some [[97, 97, 97], [97, 98, 99], [100, 98, 97]] := by
  refine ⟨radixSortA_eq_referenceSort sc arr L hlen hv, referenceSort_pairwise arr,
    referenceSort_perm arr, ?_⟩
  have h := radixSortA_eq_referenceSort sc [[100, 98, 97], [97, 97, 97], [97, 98, 99]] 3
    (by decide) (validBytes_true_of_lt (by decide) sc)
  rw [show (3 : Int) = ((3 : Nat) : Int) from rfl, h]
  decide

/-- C1, instance: two ASCII strings of length 2 under a signed `char`. -/
theorem C1_radixSortA_sorts_witness :
    (∀ s ∈ ([[98, 97], [97, 98]] : List Str), s.length = 2) ∧
    ValidBytes true [[98, 97], [97, 98]] ∧
    radixSortA true [[98, 97], [97, 98]] ((2 : Nat) : Int)
      = some (referenceSort [[98, 97], [97, 98]]) :=
  ⟨by decide, by decide,
    (C1_radixSortA_sorts true [[98, 97], [97, 98]] 2 (by decide) (by decide)).1⟩

/-- C1 as stated fails: with a signed `char` the one-string array `["\x80"]`, of length
`1 = stringLen`, makes `buckets[s[0]]` the subscript `-128`; the call has no defined
result, so the array is not the reference sort of the input. -/
theorem C1_signed_char_counterexample :
    (∀ s ∈ ([[128]] : List Str), s.length = 1) ∧
    radixSortA true [[128]] 1 = none ∧
    radixSortA true [[128]] 1 ≠ some (referenceSort [[128]]) := by
  decide

/-- C2 (amended): `countingRadixSort` on strings of length exactly `L` (odd or even)
whose bytes are usable as subscripts (any byte when plain `char` is unsigned, the bytes
`0..127` when it is signed) leaves in the caller's array the reference sort of the
input, which is in ascending byte-wise lexicographic order and a permutation of the
input. -/
theorem C2_countingRadixSort_sorts (sc : Bool) (arr : List Str) (L : Nat)
    (hlen : ∀ s ∈ arr, s.length = L) (hv : ValidBytes sc arr) :
    countingRadixSort sc arr (L : Int) = some (referenceSort arr) ∧
    (referenceSort arr).Pairwise StrLe ∧ (referenceSort arr).Perm arr := by
  exact ⟨countingRadixSort_eq_referenceSort sc arr L hlen hv, referenceSort_pairwise arr,
    referenceSort_perm arr⟩

/-- C2, instances: an odd and an even length under a signed `char`. -/
theorem C2_countingRadixSort_sorts_witness :
    (countingRadixSort true [[100, 98, 97], [97, 97, 97], [97, 98, 99]] ((3 : Nat) : Int)
      = some (referenceSort [[100, 98, 97], [97, 97, 97], [97, 98, 99]])) ∧
    (countingRadixSort true [[98, 97], [97, 98]] ((2 : Nat) : Int)
      = some (referenceSort [[98, 97], [97, 98]])) :=
  ⟨(C2_countingRadixSort_sorts true [[100, 98, 97], [97, 97, 97], [97, 98, 99]] 3
      (by decide) (by decide)).1,
   (C2_countingRadixSort_sorts true [[98, 97], [97, 98]] 2 (by decide) (by decide)).1⟩

/-- C2 as stated fails: with a signed `char` the array `["\xff", "A"]` of strings of
length `1` makes `count[(*in)[i][pos]]` the subscript `-1` in the placement loop; the
call has no defined result. -/
theorem C2_signed_char_counterexample :
    (∀ s ∈ ([[255], [65]] : List Str), s.length = 1) ∧
    countingRadixSort true [[255], [65]] 1 = none ∧
    countingRadixSort true [[255], [65]] 1 ≠ some (referenceSort [[255], [65]]) := by
  decide

/-- C3 (amended): `radixSort` called with `maxLen` below `INT_MAX`, on strings of length
at most `maxLen` whose bytes are usable as subscripts (any byte when plain `char` is
unsigned, the bytes `0..127` when it is signed), returns the reference sort of the array:
ascending lexicographic order in which a prefix of a string comes before it, and a
permutation of the input; `["ba","a","abc","ab","b"]` with `maxLen = 3` becomes
`["a","ab","abc","b","ba"]`. -/
theorem C3_radixSort_sorts (sc : Bool) (arr : List Str) (maxLen : Nat)
    (hlen : ∀ s ∈ arr, s.length ≤ maxLen) (hv : ValidBytes sc arr)
    (hmax : (maxLen : Int) < INT_MAX) :
    radixSort sc arr (maxLen : Int) = some (referenceSort arr) ∧
    (referenceSort arr).Pairwise StrLe ∧ (referenceSort arr).Perm arr ∧
    (∀ a t : Str, StrLe a (a ++ t)) ∧
    radixSort sc [[98, 97], [97], [97, 98, 99], [97, 98], [98]] 3
      = some [[97], [97, 98], [97, 98, 99], [98], [98, 97]] := by
  refine ⟨radixSort_eq_referenceSort sc arr maxLen hlen hv hmax, referenceSort_pairwise arr,
    referenceSort_perm arr, strLe_append_right, ?_⟩
  have h := radixSort_eq_referenceSort sc [[98, 97], [97], [97, 98, 99], [97, 98], [98]] 3
    (by decide) (validBytes_true_of_lt (by decide) sc) (by decide)
  rw [show (3 : Int) = ((3 : Nat) : Int) from rfl, h]
  decide

/-- C3, instance: strings of lengths 0, 1 and 2 with `maxLen = 2` under a signed
`char`. -/
theorem C3_radixSort_sorts_witness :
    (∀ s ∈ ([[98], [], [97, 98], [97]] : List Str), s.length ≤ 2) ∧
    ValidBytes true [[98], [], [97, 98], [97]] ∧
    ((2 : Nat) : Int) < INT_MAX ∧
    radixSort true [[98], [], [97, 98], [97]] ((2 : Nat) : Int)
      = some (referenceSort [[98], [], [97, 98], [97]]) :=
  ⟨by decide, by decide, by decide,
    (C3_radixSort_sorts true [[98], [], [97, 98], [97]] 2 (by decide) (by decide)
      (by decide)).1⟩

/-- C3 as stated fails in two places.  With a signed `char` the array `["a", "\xc8"]`,
lengths within `maxLen = 1`, makes `buckets[arr[i][pos]]` a negative subscript; the call
has no defined result.  With `maxLen = INT_MAX` the size `maxLen + 1` overflows, and the
call has no defined result even on the empty array. -/
theorem C3_signed_char_counterexample :
    (∀ s ∈ ([[97], [200]] : List Str), s.length ≤ 1) ∧
    radixSort true [[97], [200]] 1 = none ∧
    radixSort true [[97], [200]] 1 ≠ some (referenceSort [[97], [200]]) ∧
    radixSort true [] 2147483647 = none := by
  decide

/-- C4 (amended): for every `L ≥ 0` and every array of strings that all have length
exactly `L` and whose bytes are usable as subscripts (any byte when plain `char` is
unsigned, the bytes `0..127` when it is signed), `radixSortA` and `countingRadixSort`
called with `stringLen = L` both return, and leave the array in exactly the same final
order, element by element. -/
theorem C4_bucket_counting_agree (sc : Bool) (arr : List Str) (L : Nat)
    (hlen : ∀ s ∈ arr, s.length = L) (hv : ValidBytes sc arr) :
    ∃ out, radixSortA sc arr (L : Int) = some out ∧
      countingRadixSort sc arr (L : Int) = some out := by
  have hle : ∀ s ∈ arr, L ≤ s.length := fun s hs => Nat.le_of_eq (hlen s hs).symm
  exact ⟨lsdPasses L arr, radixSortA_eq_lsdPasses sc arr L hle hv,
    countingRadixSort_eq sc arr L hle hv⟩

/-- C4, instance: three strings of length 3 under a signed `char`. -/
theorem C4_bucket_counting_agree_witness :
    (∀ s ∈ ([[100, 98, 97], [97, 97, 97], [97, 98, 99]] : List Str), s.length = 3) ∧
    ValidBytes true [[100, 98, 97], [97, 97, 97], [97, 98, 99]] ∧
    ∃ out, radixSortA true [[100, 98, 97], [97, 97, 97], [97, 98, 99]] ((3 : Nat) : Int)
        = some out ∧
      countingRadixSort true [[100, 98, 97], [97, 97, 97], [97, 98, 99]] ((3 : Nat) : Int)
        = some out :=
  ⟨by decide, by decide,
    C4_bucket_counting_agree true [[100, 98, 97], [97, 97, 97], [97, 98, 99]] 3
      (by decide) (by decide)⟩

/-- C4 as stated fails: with a signed `char` and the array `["\x96"]` of strings of
length 1, `radixSortA` subscripts `buckets` with `-106` and `countingRadixSort`
subscripts `count` with `-105`; neither call has a defined result, so they leave no
common final order. -/
theorem C4_signed_char_counterexample :
    (∀ s ∈ ([[150]] : List Str), s.length = 1) ∧
    radixSortA true [[150]] 1 = none ∧ countingRadixSort true [[150]] 1 = none ∧
    ¬ ∃ out, radixSortA true [[150]] 1 = some out ∧
      countingRadixSort true [[150]] 1 = some out := by
  refine ⟨by decide, by decide, by decide, ?_⟩
  rintro ⟨out, h, _⟩
  have hnone : radixSortA true [[150]] 1 = none := by decide
  rw [hnone] at h
  exact Option.noConfusion h

/-- C5 (amended): for each of the three functions and every array that satisfies the
length precondition of the function and whose bytes are usable as subscripts (any byte
when plain `char` is unsigned, the bytes `0..127` when it is signed), and for `radixSort`
with `maxLen` below `INT_MAX`, the call returns a permutation of the input, with the
same number of elements. -/
theorem C5_output_is_permutation (sc : Bool) (arr : List Str) (L : Nat)
    (hv : ValidBytes sc arr) :
    ((∀ s ∈ arr, s.length = L) →
      (∃ out, radixSortA sc arr (L : Int) = some out ∧ out.Perm arr ∧
        out.length = arr.length) ∧
      (∃ out, countingRadixSort sc arr (L : Int) = some out ∧ out.Perm arr ∧
        out.length = arr.length)) ∧
    ((∀ s ∈ arr, s.length ≤ L) → (L : Int) < INT_MAX →
      ∃ out, radixSort sc arr (L : Int) = some out ∧ out.Perm arr ∧
        out.length = arr.length) := by
  constructor
  · intro hlen
    have hle : ∀ s ∈ arr, L ≤ s.length := fun s hs => Nat.le_of_eq (hlen s hs).symm
    exact ⟨⟨_, radixSortA_eq_lsdPasses sc arr L hle hv, lsdPasses_perm L arr,
        (lsdPasses_perm L arr).length_eq⟩,
      ⟨_, countingRadixSort_eq sc arr L hle hv, lsdPasses_perm L arr,
        (lsdPasses_perm L arr).length_eq⟩⟩
  · intro hlen hmax
    exact ⟨_, radixSort_eq_varSorted sc arr L hlen hv hmax, varSorted_perm arr L hlen,
      (varSorted_perm arr L hlen).length_eq⟩

/-- C5, instances: a fixed-length array for the two fixed-length sorts and a
mixed-length array for `radixSort`. -/
theorem C5_output_is_permutation_witness :
    (∃ out, radixSortA true [[98, 97], [97, 98], [98, 97]] ((2 : Nat) : Int) = some out ∧
      out.Perm [[98, 97], [97, 98], [98, 97]] ∧ out.length = 3) ∧
    (∃ out, radixSort true [[98, 97], [], [97]] ((2 : Nat) : Int) = some out ∧
      out.Perm [[98, 97], [], [97]] ∧ out.length = 3) :=
  ⟨((C5_output_is_permutation true [[98, 97], [97, 98], [98, 97]] 2 (by decide)).1
      (by decide)).1,
   (C5_output_is_permutation true [[98, 97], [], [97]] 2 (by decide)).2 (by decide)
      (by decide)⟩

/-- C5 as stated fails in two places.  With a signed `char` the array `["\x81", "A"]`
satisfies the length precondition for `stringLen = 1`, and `countingRadixSort` has no
defined result on it, so no output array is a permutation of the input.  With
`maxLen = INT_MAX` the size `maxLen + 1` overflows and `radixSort` has no defined result
on the empty array. -/
theorem C5_signed_char_counterexample :
    (∀ s ∈ ([[129], [65]] : List Str), s.length = 1) ∧
    (¬ ∃ out, countingRadixSort true [[129], [65]] 1 = some out ∧
      out.Perm [[129], [65]]) ∧
    ¬ ∃ out, radixSort true [] 2147483647 = some out ∧ out.Perm [] := by
  refine ⟨by decide, ?_, ?_⟩
  · rintro ⟨out, h, _⟩
    have hnone : countingRadixSort true [[129], [65]] 1 = none := by decide
    rw [hnone] at h
    exact Option.noConfusion h
  · rintro ⟨out, h, _⟩
    have hnone : radixSort true [] 2147483647 = none := by decide
    rw [hnone] at h
    exact Option.noConfusion h

/-- C6 (amended): for each of the three functions and every array that satisfies the
length precondition and whose bytes are usable as subscripts (any byte when plain `char`
is unsigned, the bytes `0..127` when it is signed), an array already in ascending
lexicographic order is returned unchanged, and sorting the output of a call again
returns the same output; for `radixSort` this holds with `maxLen` below `INT_MAX`. -/
theorem C6_sorted_is_fixed_point (sc : Bool) (arr : List Str) (L : Nat)
    (hv : ValidBytes sc arr) :
    ((∀ s ∈ arr, s.length = L) →
      (arr.Pairwise StrLe →
        radixSortA sc arr (L : Int) = some arr ∧
        countingRadixSort sc arr (L : Int) = some arr) ∧
      (∃ out, radixSortA sc arr (L : Int) = some out ∧
        radixSortA sc out (L : Int) = some out) ∧
      (∃ out, countingRadixSort sc arr (L : Int) = some out ∧
        countingRadixSort sc out (L : Int) = some out)) ∧
    ((∀ s ∈ arr, s.length ≤ L) → (L : Int) < INT_MAX →
      (arr.Pairwise StrLe → radixSort sc arr (L : Int) = some arr) ∧
      (∃ out, radixSort sc arr (L : Int) = some out ∧
        radixSort sc out (L : Int) = some out)) := by
  have hperm := referenceSort_perm arr
  have hsorted := referenceSort_pairwise arr
  have hv2 : ValidBytes sc (referenceSort arr) := validBytes_of_perm hperm hv
  constructor
  · intro hlen
    have hlen2 : ∀ s ∈ referenceSort arr, s.length = L := fun s hs => hlen s (hperm.subset hs)
    have h1 := radixSortA_eq_referenceSort sc arr L hlen hv
    have h2 := countingRadixSort_eq_referenceSort sc arr L hlen hv
    refine ⟨fun hs => ?_, ⟨_, h1, ?_⟩, ⟨_, h2, ?_⟩⟩
    · rw [h1, h2, referenceSort_eq_self hs]
      exact ⟨rfl, rfl⟩
    · rw [radixSortA_eq_referenceSort sc _ L hlen2 hv2, referenceSort_eq_self hsorted]
    · rw [countingRadixSort_eq_referenceSort sc _ L hlen2 hv2, referenceSort_eq_self hsorted]
  · intro hlen hmax
    have hlen2 : ∀ s ∈ referenceSort arr, s.length ≤ L := fun s hs => hlen s (hperm.subset hs)
    have h3 := radixSort_eq_referenceSort sc arr L hlen hv hmax
    refine ⟨fun hs => ?_, ⟨_, h3, ?_⟩⟩
    · rw [h3, referenceSort_eq_self hs]
    · rw [radixSort_eq_referenceSort sc _ L hlen2 hv2 hmax, referenceSort_eq_self hsorted]

/-- C6, instances: a sorted fixed-length array and a sorted mixed-length array, each
returned unchanged. -/
theorem C6_sorted_is_fixed_point_witness :
    (radixSortA true [[97, 98], [98, 97]] ((2 : Nat) : Int) = some [[97, 98], [98, 97]] ∧
      countingRadixSort true [[97, 98], [98, 97]] ((2 : Nat) : Int)
        = some [[97, 98], [98, 97]]) ∧
    radixSort true [[], [97], [97, 98]] ((2 : Nat) : Int) = some [[], [97], [97, 98]] :=
  ⟨((C6_sorted_is_fixed_point true [[97, 98], [98, 97]] 2 (by decide)).1 (by decide)).1
      (by decide),
   ((C6_sorted_is_fixed_point true [[], [97], [97, 98]] 2 (by decide)).2 (by decide)
      (by decide)).1 (by decide)⟩

/-- C6 as stated fails in two places.  With a signed `char` the array `["A", "\x8c"]`
is in ascending order and within `maxLen = 1`, and `radixSort` has no defined result on
it instead of returning it unchanged.  With `maxLen = INT_MAX` the size `maxLen + 1`
overflows, and `radixSort` does not return the empty array, which is sorted, unchanged. -/
theorem C6_signed_char_counterexample :
    (∀ s ∈ ([[65], [140]] : List Str), s.length ≤ 1) ∧
    List.Pairwise StrLe [[65], [140]] ∧
    radixSort true [[65], [140]] 1 ≠ some [[65], [140]] ∧
    radixSort true [] 2147483647 ≠ some [] := by
  decide

/-- C7: with `stringLen = 0` the loops of `radixSortA` and `countingRadixSort` run no
iteration and return the array as it is, whatever it holds; with `maxLen = 0`
`radixSort` is its length-bucketing step alone, and on an array of empty strings of any
size this leaves the array unchanged. -/
theorem C7_zero_length_parameter (sc : Bool) (arr : List Str) (h : ∀ s ∈ arr, s = []) :
    radixSortA sc arr 0 = some arr ∧ countingRadixSort sc arr 0 = some arr ∧
    radixSort sc arr 0 = some arr ∧
    (∀ (a : List Str) (bk : List (List Str)), radixSortALoop sc (0 : Int).toNat a bk = some a) ∧
    (∀ st : Buffers, countingLoop sc (0 : Int).toNat st = some st) ∧
    (∀ a : List Str, radixSort sc a 0 = (lengthBucket a 0).map Prod.fst) := by
  refine ⟨rfl, rfl, ?_, fun _ _ => rfl, fun _ => rfl, ?_⟩
  · have hlen : ∀ s ∈ arr, s.length ≤ 0 := fun s hs => by rw [h s hs]; exact Nat.le_refl _
    have hv : ValidBytes sc arr := fun s hs c hc => by rw [h s hs] at hc; simp at hc
    have h1 := radixSort_eq_referenceSort sc arr 0 hlen hv (by decide)
    have hs : arr.Pairwise StrLe := by
      rw [List.pairwise_iff_forall_sublist]
      intro a b hab
      have ha : a ∈ arr := hab.subset (by simp)
      rw [h a ha]
      rfl
    rw [referenceSort_eq_self hs] at h1
    exact h1
  · intro a
    unfold radixSort
    cases lengthBucket a 0 with
    | none => rfl
    | some p => rfl

/-- C7, instance: three empty strings. -/
theorem C7_zero_length_parameter_witness :
    (∀ s ∈ ([[], [], []] : List Str), s = []) ∧
    radixSortA true [[], [], []] 0 = some [[], [], []] ∧
    countingRadixSort true [[], [], []] 0 = some [[], [], []] ∧
    radixSort true [[], [], []] 0 = some [[], [], []] :=
  ⟨by decide,
    (C7_zero_length_parameter true [[], [], []] (by decide)).1,
    (C7_zero_length_parameter true [[], [], []] (by decide)).2.1,
    (C7_zero_length_parameter true [[], [], []] (by decide)).2.2.1⟩

/-- C8 (amended): for each of the three functions and every length parameter `L ≥ 0`,
for `radixSort` below `INT_MAX`, an empty array yields an empty array, and a one-element
array whose string satisfies the length precondition and has bytes usable as subscripts
(any byte when plain `char` is unsigned, the bytes `0..127` when it is signed) is
returned unchanged. -/
theorem C8_small_inputs (sc : Bool) (L : Nat) (s : Str) (hv : ValidBytes sc [s]) :
    radixSortA sc [] (L : Int) = some [] ∧ countingRadixSort sc [] (L : Int) = some [] ∧
    ((L : Int) < INT_MAX → radixSort sc [] (L : Int) = some []) ∧
    (s.length = L →
      radixSortA sc [s] (L : Int) = some [s] ∧ countingRadixSort sc [s] (L : Int) = some [s]) ∧
    (s.length ≤ L → (L : Int) < INT_MAX → radixSort sc [s] (L : Int) = some [s]) := by
  have hnil : ValidBytes sc [] := fun t ht => by simp at ht
  have hnl : ∀ t ∈ ([] : List Str), t.length = L := fun t ht => by simp at ht
  have hnle : ∀ t ∈ ([] : List Str), t.length ≤ L := fun t ht => by simp at ht
  refine ⟨radixSortA_eq_referenceSort sc [] L hnl hnil,
    countingRadixSort_eq_referenceSort sc [] L hnl hnil,
    fun hmax => radixSort_eq_referenceSort sc [] L hnle hnil hmax, fun hl => ?_,
    fun hl hmax => ?_⟩
  · have h1 : ∀ t ∈ [s], t.length = L := fun t ht => by
      rw [List.mem_singleton.mp ht]; exact hl
    exact ⟨radixSortA_eq_referenceSort sc [s] L h1 hv,
      countingRadixSort_eq_referenceSort sc [s] L h1 hv⟩
  · have h1 : ∀ t ∈ [s], t.length ≤ L := fun t ht => by
      rw [List.mem_singleton.mp ht]; exact hl
    exact radixSort_eq_referenceSort sc [s] L h1 hv hmax

/-- C8, instance: the one-element array `["abc"]` with length parameter 3. -/
theorem C8_small_inputs_witness :
    ValidBytes true [[97, 98, 99]] ∧
    radixSortA true [[97, 98, 99]] ((3 : Nat) : Int) = some [[97, 98, 99]] ∧
    countingRadixSort true [[97, 98, 99]] ((3 : Nat) : Int) = some [[97, 98, 99]] ∧
    radixSort true [[97, 98, 99]] ((3 : Nat) : Int) = some [[97, 98, 99]] :=
  ⟨by decide,
    ((C8_small_inputs true 3 [97, 98, 99] (by decide)).2.2.2.1 (by decide)).1,
    ((C8_small_inputs true 3 [97, 98, 99] (by decide)).2.2.2.1 (by decide)).2,
    (C8_small_inputs true 3 [97, 98, 99] (by decide)).2.2.2.2 (by decide) (by decide)⟩

/-- C8 as stated fails in two places.  With a signed `char` the one-element array
`["\xfa"]` satisfies the length precondition for `stringLen = 1`, and `radixSortA` has no
defined result on it instead of returning it unchanged.  With `maxLen = INT_MAX` the
size `maxLen + 1` overflows, and `radixSort` does not yield an empty array on the empty
array. -/
theorem C8_signed_char_counterexample :
    ([250] : Str).length = 1 ∧ radixSortA true [[250]] 1 ≠ some [[250]] ∧
    radixSort true [] 2147483647 ≠ some [] := by
  decide

/-- C9 (amended): precondition violations are not reported, the source has no error of
its own.  When every string has at least `stringLen` bytes (and bytes usable as
subscripts), also when some are longer than `stringLen`, `radixSortA` and
`countingRadixSort` return normally, with the same permutation of the input; when some
string is longer than `maxLen`, `radixSort` subscripts `wordsByLength` out of range and
has no defined result. -/
theorem C9_violations_not_reported (sc : Bool) (arr : List Str) (L : Nat)
    (hlen : ∀ s ∈ arr, L ≤ s.length) (hv : ValidBytes sc arr) :
    (∃ out, radixSortA sc arr (L : Int) = some out ∧
      countingRadixSort sc arr (L : Int) = some out ∧ out.Perm arr) ∧
    (∀ (arr2 : List Str) (maxLen : Nat), (∃ s ∈ arr2, maxLen < s.length) →
      radixSort sc arr2 (maxLen : Int) = none) :=
  ⟨⟨lsdPasses L arr, radixSortA_eq_lsdPasses sc arr L hlen hv,
      countingRadixSort_eq sc arr L hlen hv, lsdPasses_perm L arr⟩,
    fun arr2 maxLen h => radixSort_none_of_long sc arr2 maxLen h⟩

/-- C9, instance: strings of length 2 sorted with `stringLen = 1`. -/
theorem C9_violations_not_reported_witness :
    (∀ s ∈ ([[98, 97], [97, 98]] : List Str), 1 ≤ s.length) ∧
    ValidBytes true [[98, 97], [97, 98]] ∧
    (∃ out, radixSortA true [[98, 97], [97, 98]] ((1 : Nat) : Int) = some out ∧
      countingRadixSort true [[98, 97], [97, 98]] ((1 : Nat) : Int) = some out ∧
      out.Perm [[98, 97], [97, 98]]) :=
  ⟨by decide, by decide,
    (C9_violations_not_reported true [[98, 97], [97, 98]] 1 (by decide) (by decide)).1⟩

/-- C9 as stated fails: `["ba", "ab"]` has strings of length 2, which differs from
`stringLen = 1`, and `radixSortA` and `countingRadixSort` return the reordered array
`["ab", "ba"]` without any error. -/
theorem C9_no_error_counterexample :
    (∃ s ∈ ([[98, 97], [97, 98]] : List Str), s.length ≠ 1) ∧
    radixSortA true [[98, 97], [97, 98]] 1 = some [[97, 98], [98, 97]] ∧
    countingRadixSort true [[98, 97], [97, 98]] 1 = some [[97, 98], [98, 97]] := by
  decide

/-- C10 (amended): for every array of strings that all have a character at position
`pos`, usable as a subscript (any byte when plain `char` is unsigned, a byte in `0..127`
when it is signed), one pass of `radixSortA` at `pos` is a stable sort by the byte at
`pos`: the result is a permutation of the pass input, non-decreasing in the byte at
`pos`, and for every byte value the strings with that byte appear in the order they had
in the pass input; the buckets are empty again after the pass. -/
theorem C10_bucket_pass_stable (sc : Bool) (arr : List Str) (pos : Nat)
    (hlen : ∀ s ∈ arr, pos < s.length)
    (hv : ∀ s ∈ arr, sc = true → digit pos s < 128) :
    ∃ out, bucketPass sc arr (List.replicate BUCKETS []) pos
        = some (out, List.replicate BUCKETS []) ∧
      out.Perm arr ∧
      out.Pairwise (fun a b => digit pos a ≤ digit pos b) ∧
      ∀ b : Nat, out.filter (fun s => digit pos s == b)
        = arr.filter (fun s => digit pos s == b) :=
  ⟨stableSortBy (digit pos) BUCKETS arr,
    bucketPass_eq sc arr pos (fun s hs => ⟨hlen s hs, hv s hs⟩),
    stableSortBy_perm (digit pos) BUCKETS arr (fun s _ => digit_lt pos s),
    stableSortBy_pairwise_key (digit pos) BUCKETS arr,
    fun b => filter_stableSortBy_digit pos arr b⟩

/-- C10, instance: a pass at position 1 over three strings of length 2. -/
theorem C10_bucket_pass_stable_witness :
    (∀ s ∈ ([[98, 98], [97, 97], [99, 97]] : List Str), 1 < s.length) ∧
    ∃ out, bucketPass true [[98, 98], [97, 97], [99, 97]] (List.replicate BUCKETS []) 1
        = some (out, List.replicate BUCKETS []) ∧
      out.Perm [[98, 98], [97, 97], [99, 97]] ∧
      out.Pairwise (fun a b => digit 1 a ≤ digit 1 b) ∧
      ∀ b : Nat, out.filter (fun s => digit 1 s == b)
        = ([[98, 98], [97, 97], [99, 97]] : List Str).filter (fun s => digit 1 s == b) :=
  ⟨by decide,
    C10_bucket_pass_stable true [[98, 98], [97, 97], [99, 97]] 1 (by decide) (by decide)⟩

/-- C10 as stated fails: with a signed `char` the array `["\x83"]` has a character at
position 0, and the pass subscripts `buckets` with `-125`: it has no defined result. -/
theorem C10_signed_char_counterexample :
    (∀ s ∈ ([[131]] : List Str), 0 < s.length) ∧
    bucketPass true [[131]] (List.replicate BUCKETS []) 0 = none := by
  decide


/-- C11 (amended): for every array of strings of length exactly `L` whose bytes are
usable as subscripts (any byte when plain `char` is unsigned, the bytes `0..127` when it
is signed) and every `pos` with `0 ≤ pos ≤ L`, after `radixSortA` has executed the passes
for the positions `L - 1` down to `pos` the array is a permutation of the input in
ascending byte-wise lexicographic order of the suffixes `s[pos..L)`; the rest of the call
is the loop continued from this array, and at `pos = 0` the array is fully sorted and is
what the call returns. -/
theorem C11_suffix_invariant (sc : Bool) (arr : List Str) (L pos : Nat)
    (hlen : ∀ s ∈ arr, s.length = L) (hv : ValidBytes sc arr) (hpos : pos ≤ L) :
    ∃ arr1, radixSortALoopTo sc pos L arr (List.replicate BUCKETS [])
        = some (arr1, List.replicate BUCKETS []) ∧
      arr1.Pairwise (fun a b => StrLe (a.drop pos) (b.drop pos)) ∧
      arr1.Perm arr ∧
      radixSortA sc arr (L : Int) = radixSortALoop sc pos arr1 (List.replicate BUCKETS []) ∧
      (pos = 0 → arr1.Pairwise StrLe ∧ radixSortA sc arr (L : Int) = some arr1) := by
  have hle : ∀ s ∈ arr, L ≤ s.length := fun s hs => Nat.le_of_eq (hlen s hs).symm
  have hto := radixSortALoopTo_eq sc pos L arr hle hv
  have hsorted : (lsdPassesTo pos L arr).Pairwise (SufLe pos) :=
    lsdPassesTo_pairwise pos L arr hpos hle
      (pairwise_sufLe_of_length_le L arr (fun s hs => Nat.le_of_eq (hlen s hs)))
  have hbind : radixSortA sc arr (L : Int)
      = radixSortALoop sc pos (lsdPassesTo pos L arr) (List.replicate BUCKETS []) := by
    unfold radixSortA
    rw [Int.toNat_ofNat, radixSortALoop_eq_bind sc pos L arr _ hpos, hto]
    rfl
  refine ⟨lsdPassesTo pos L arr, hto, hsorted, lsdPassesTo_perm pos L arr, hbind, ?_⟩
  intro h0
  subst h0
  exact ⟨pairwise_strLe_of_sufLe_zero hsorted, by rw [hbind]; rfl⟩

/-- C11, instance: three strings of length 3 after the passes at positions 2 and 1. -/
theorem C11_suffix_invariant_witness :
    (∀ s ∈ ([[100, 98, 97], [97, 97, 97], [97, 98, 99]] : List Str), s.length = 3) ∧
    ValidBytes true [[100, 98, 97], [97, 97, 97], [97, 98, 99]] ∧
    ∃ arr1, radixSortALoopTo true 1 3 [[100, 98, 97], [97, 97, 97], [97, 98, 99]]
        (List.replicate BUCKETS []) = some (arr1, List.replicate BUCKETS []) ∧
      arr1.Pairwise (fun a b => StrLe (a.drop 1) (b.drop 1)) := by
  obtain ⟨arr1, h1, h2, _⟩ := C11_suffix_invariant true
    [[100, 98, 97], [97, 97, 97], [97, 98, 99]] 3 1 (by decide) (by decide) (by decide)
  exact ⟨by decide, by decide, arr1, h1, h2⟩

/-- C11 as stated fails: with a signed `char` the array `["A\x80"]` of strings of length
2 makes the pass at position 1 subscript `buckets` with `-128`; there is no array after
the passes for the positions 1 down to 1. -/
theorem C11_signed_char_counterexample :
    (∀ s ∈ ([[65, 128]] : List Str), s.length = 2) ∧
    radixSortALoopTo true 1 2 [[65, 128]] (List.replicate BUCKETS []) = none := by
  decide

/-- C12 (amended): for every array of strings that all have a character at position
`pos` whose byte is usable as a subscript (any byte when plain `char` is unsigned, a byte
in `0..127` when it is signed), one pass of `countingRadixSort` at `pos` into a buffer of
the same size and one pass of `radixSortA` at `pos` on the same input both complete, and
the output buffer of the first is element by element equal to the array of the second:
both are the stable sort of the input by the byte at `pos`. -/
theorem C12_counting_pass_eq_bucket_pass (sc : Bool) (pos : Nat) (inp out : List Str)
    (hchar : ∀ s ∈ inp, pos < s.length) (hout : out.length = inp.length)
    (hv : ∀ s ∈ inp, sc = true → digit pos s < 128) :
    ∃ res, (countingPass sc pos inp out).map Prod.fst = some res ∧
      (bucketPass sc inp (List.replicate BUCKETS []) pos).map Prod.fst = some res ∧
      res = stableSortBy (digit pos) BUCKETS inp := by
  have hok : DigitsOk sc pos inp := fun s hs => ⟨hchar s hs, hv s hs⟩
  refine ⟨stableSortBy (digit pos) BUCKETS inp, ?_, ?_, rfl⟩
  · rw [countingPass_eq sc pos inp out hout hok]; rfl
  · rw [bucketPass_eq sc inp pos hok]; rfl

/-- C12, instance: a pass at position 1 over three strings of length 2 under a signed
`char`. -/
theorem C12_counting_pass_eq_bucket_pass_witness :
    (∀ s ∈ ([[98, 98], [97, 97], [99, 97]] : List Str), 1 < s.length) ∧
    ∃ res, (countingPass true 1 [[98, 98], [97, 97], [99, 97]] [[], [], []]).map Prod.fst
        = some res ∧
      (bucketPass true [[98, 98], [97, 97], [99, 97]]
          (List.replicate BUCKETS []) 1).map Prod.fst = some res := by
  obtain ⟨res, h1, h2, _⟩ := C12_counting_pass_eq_bucket_pass true 1
    [[98, 98], [97, 97], [99, 97]] [[], [], []] (by decide) (by decide) (by decide)
  exact ⟨by decide, res, h1, h2⟩

/-- C12 as stated fails: with a signed `char` the array `["\xaa"]` has a character at
position 0, and the counting pass subscripts `count` with `-85` while the bucket pass
subscripts `buckets` with `-86`; neither pass has a defined output, so the two are not
element by element equal. -/
theorem C12_signed_char_counterexample :
    (∀ s ∈ ([[170]] : List Str), 0 < s.length) ∧
    countingPass true 0 [[170]] [[]] = none ∧
    bucketPass true [[170]] (List.replicate BUCKETS []) 0 = none := by
  decide

/-- C13 (amended): for every `L ≥ 0` and every array of strings of length `L` whose
bytes are usable as subscripts (any byte when plain `char` is unsigned, the bytes
`0..127` when it is signed), after the `L` passes with role swaps `in` points to the
auxiliary buffer exactly when `L` is odd; then the buffer holds the output of the last
pass and the copy-back moves it into the caller's array; when `L` is even no copy-back
runs and the caller's array already holds it.  In both cases the caller's array on
return is the output of the final pass. -/
theorem C13_ping_pong_parity (sc : Bool) (arr : List Str) (L : Nat)
    (hlen : ∀ s ∈ arr, s.length = L) (hv : ValidBytes sc arr) :
    ∃ st, countingLoop sc L ⟨arr, List.replicate arr.length [], true⟩ = some st ∧
      (st.inIsArr = false ↔ L % 2 = 1) ∧
      (L % 2 = 1 → (L : Int).tmod 2 = 1 ∧ st.input = st.buffer ∧ st.output = st.arr ∧
        copyBack st.input st.arr.length 0 st.output = some st.input) ∧
      (L % 2 = 0 → (L : Int).tmod 2 ≠ 1 ∧ st.input = st.arr) ∧
      countingRadixSort sc arr (L : Int) = some st.input ∧
      (0 < L → ∃ stp out1 in1,
        countingLoopTo sc 1 L ⟨arr, List.replicate arr.length [], true⟩ = some stp ∧
        countingPass sc 0 stp.input stp.output = some (out1, in1) ∧ st.input = out1) := by
  have hle : ∀ s ∈ arr, L ≤ s.length := fun s hs => Nat.le_of_eq (hlen s hs).symm
  obtain ⟨st, hloop, hin, hout, hflag⟩ := countingLoop_spec sc L
    ⟨arr, List.replicate arr.length [], true⟩ (by simp [Buffers.input, Buffers.output])
    hle hv
  replace hin : st.input = lsdPasses L arr := hin
  replace hout : st.output.length = arr.length := hout
  replace hflag : st.inIsArr = (if L % 2 = 0 then true else !true) := hflag
  have hplen : (lsdPasses L arr).length = arr.length := (lsdPasses_perm L arr).length_eq
  refine ⟨st, hloop, ?_, ?_, ?_, ?_, ?_⟩
  · rcases Nat.mod_two_eq_zero_or_one L with h0 | h1
    · simp [hflag, h0]
    · simp [hflag, h1]
  · intro h1
    have hf : st.inIsArr = false := by simpa [h1] using hflag
    have h2 : st.input = st.buffer := by simp [Buffers.input, hf]
    have h3 : st.output = st.arr := by simp [Buffers.output, hf]
    refine ⟨(tmod_two_natCast L).mpr h1, h2, h3, ?_⟩
    have harr : st.arr.length = st.input.length := by
      rw [← h3, hout, hin, hplen]
    rw [harr]
    exact copyBack_all st.input st.output (by rw [hout, hin, hplen])
  · intro h0
    have hf : st.inIsArr = true := by simpa [h0] using hflag
    exact ⟨fun h => by rw [tmod_two_natCast] at h; omega, by simp [Buffers.input, hf]⟩
  · rw [countingRadixSort_eq sc arr L hle hv, hin]
  · intro hpos
    have hbind := countingLoop_eq_bind sc 1 L ⟨arr, List.replicate arr.length [], true⟩ hpos
    rw [hloop] at hbind
    cases hto : countingLoopTo sc 1 L ⟨arr, List.replicate arr.length [], true⟩ with
    | none => rw [hto] at hbind; exact absurd hbind (by simp)
    | some stp =>
      rw [hto, Option.some_bind, countingLoop_one] at hbind
      obtain ⟨out1, in1, hp, hi, _⟩ := input_of_countingStep hbind.symm
      exact ⟨stp, out1, in1, rfl, hp, hi⟩

/-- C13, instance: three strings of length 3; `in` ends on the auxiliary buffer. -/
theorem C13_ping_pong_parity_witness :
    (∀ s ∈ ([[100, 98, 97], [97, 97, 97], [97, 98, 99]] : List Str), s.length = 3) ∧
    ValidBytes true [[100, 98, 97], [97, 97, 97], [97, 98, 99]] ∧
    ∃ st, countingLoop true 3
        ⟨[[100, 98, 97], [97, 97, 97], [97, 98, 99]], List.replicate 3 [], true⟩ = some st ∧
      st.inIsArr = false ∧
      countingRadixSort true [[100, 98, 97], [97, 97, 97], [97, 98, 99]] ((3 : Nat) : Int)
        = some st.input := by
  obtain ⟨st, h1, h2, _, _, h5, _⟩ := C13_ping_pong_parity true
    [[100, 98, 97], [97, 97, 97], [97, 98, 99]] 3 (by decide) (by decide)
  exact ⟨by decide, by decide, st, h1, h2.mpr rfl, h5⟩

/-- C13 as stated fails: with a signed `char` the array `["\xbe"]` of strings of length
1 makes the only pass subscript `count` with `-65`; there is no state after the pass and
nothing is returned in the caller's array. -/
theorem C13_signed_char_counterexample :
    (∀ s ∈ ([[190]] : List Str), s.length = 1) ∧
    (countingLoop true 1 ⟨[[190]], List.replicate 1 [], true⟩).isNone = true ∧
    countingRadixSort true [[190]] 1 = none := by
  decide

/-- C14 (amended): for every `maxLen` below `INT_MAX` and every array of strings with
lengths in `0..maxLen`, the length-bucketing step of `radixSort` puts the strings of
length `n` into `wordsByLength[n]` in input order and writes the groups back one after
the other: the array is then a permutation of the input that is non-decreasing in length
and in which the strings of each length keep their input order (a stable sort by
length); `wordsByLength` keeps `maxLen + 1` groups of the same sizes, their strings moved
out. -/
theorem C14_length_bucketing (arr : List Str) (maxLen : Nat)
    (hlen : ∀ s ∈ arr, s.length ≤ maxLen) (hmax : (maxLen : Int) < INT_MAX) :
    ∃ out words, lengthBucket arr (maxLen : Int) = some (out, words) ∧
      out.Perm arr ∧
      out.Pairwise (fun a b => a.length ≤ b.length) ∧
      (∀ n : Nat, out.filter (fun s => s.length == n) = arr.filter (fun s => s.length == n)) ∧
      words.length = maxLen + 1 ∧
      (∀ n : Nat, n ≤ maxLen →
        words[n]? = some ((arr.filter (fun s => s.length == n)).map (fun _ => movedFrom))) ∧
      ∃ groups, distributeByLength arr (List.replicate (maxLen + 1) []) = some groups ∧
        (∀ n : Nat, n ≤ maxLen → groups[n]? = some (arr.filter (fun s => s.length == n))) ∧
        out = groups.flatten := by
  refine ⟨_, _, lengthBucket_eq arr maxLen hlen hmax,
    stableSortBy_perm _ _ arr (fun s hs => Nat.lt_succ_of_le (hlen s hs)),
    stableSortBy_pairwise_key List.length (maxLen + 1) arr, fun n => ?_,
    by simp [movedOut], fun n hn => getElem?_words arr maxLen n hn,
    (List.range (maxLen + 1)).map (byLength arr), ?_,
    fun n hn => getElem?_groups arr maxLen n hn, rfl⟩
  · rw [filter_stableSortBy_ite]
    by_cases h : n < maxLen + 1
    · rw [if_pos h]
    · rw [if_neg h, eq_comm, List.filter_eq_nil_iff]
      intro s hs
      have := hlen s hs
      simp only [beq_iff_eq]
      omega
  · rw [distributeByLength_eq arr _ (fun s hs => by
      rw [List.length_replicate]; exact Nat.lt_succ_of_le (hlen s hs)),
      distributeBy_length_replicate]

/-- C14, instance: the five strings of the example of the specification. -/
theorem C14_length_bucketing_witness :
    (∀ s ∈ ([[98, 97], [97], [97, 98, 99], [97, 98], [98]] : List Str), s.length ≤ 3) ∧
    ((3 : Nat) : Int) < INT_MAX ∧
    ∃ out words,
      lengthBucket [[98, 97], [97], [97, 98, 99], [97, 98], [98]] ((3 : Nat) : Int)
        = some (out, words) ∧
      out.Perm [[98, 97], [97], [97, 98, 99], [97, 98], [98]] ∧
      out.Pairwise (fun a b => a.length ≤ b.length) := by
  obtain ⟨out, words, h1, h2, h3, _⟩ := C14_length_bucketing
    [[98, 97], [97], [97, 98, 99], [97, 98], [98]] 3 (by decide) (by decide)
  exact ⟨by decide, by decide, out, words, h1, h2, h3⟩

/-- C14 as stated fails: with `maxLen = INT_MAX` the size `maxLen + 1` of
`wordsByLength` overflows, and the step has no defined result even on the empty array,
whose lengths are all within `0..maxLen`. -/
theorem C14_int_max_counterexample :
    (∀ s ∈ ([] : List Str), s.length ≤ 2147483647) ∧
    lengthBucket [] 2147483647 = none := by
  decide

/-- C15 (amended): for every `maxLen` below `INT_MAX`, every array of strings with
lengths in `0..maxLen` whose bytes are usable as subscripts (any byte when plain `char`
is unsigned, the bytes `0..127` when it is signed) and every pass position `pos` in
`0..maxLen - 1`, the `startingIndex` used by that pass is the number of input strings of
length at most `pos` (so it is not negative); the elements from `startingIndex` on at
the start of the pass are exactly the strings of length greater than `pos`, so each has
a character at `pos`, and the elements before `startingIndex` have length at most `pos`,
so none with a character at `pos` is skipped. -/
theorem C15_active_range (sc : Bool) (arr : List Str) (maxLen pos : Nat)
    (hlen : ∀ s ∈ arr, s.length ≤ maxLen) (hv : ValidBytes sc arr) (hpos : pos < maxLen)
    (hmax : (maxLen : Int) < INT_MAX) :
    ∃ (arr1 : List Str) (buckets : List (List Str)) (start : Nat),
      passStart sc arr (maxLen : Int) pos = some (arr1, buckets, (start : Int)) ∧
      start = (arr.filter (fun s => decide (s.length ≤ pos))).length ∧
      (arr1.drop start).Perm (arr.filter (fun s => decide (pos < s.length))) ∧
      (∀ s ∈ arr1.drop start, pos < s.length) ∧
      (∀ s ∈ arr1.take start, s.length ≤ pos) ∧
      arr1.Perm arr := by
  have hact := active_perm arr maxLen pos hlen hpos
  refine ⟨_, _, (stableSortBy List.length (pos + 1) arr).length,
    passStart_eq sc arr maxLen pos hlen hv hpos hmax, length_stableSortBy_length arr pos,
    ?_, ?_, ?_, ?_⟩
  · rw [List.drop_left]
    exact hact
  · rw [List.drop_left]
    intro s hs
    simpa using (List.mem_filter.mp (hact.subset hs)).2
  · rw [List.take_left]
    exact fun s hs => (length_le_of_mem_stableSortBy_length hs).2
  · refine ((stableSortBy_perm_filter List.length (pos + 1) arr).append hact).trans ?_
    have h := List.filter_append_perm (fun s : Str => decide (s.length < pos + 1)) arr
    have heq : (fun s : Str => !decide (s.length < pos + 1))
        = (fun s => decide (pos < s.length)) := by
      funext s
      rcases Nat.lt_or_ge s.length (pos + 1) with h1 | h1
      · rw [decide_eq_true h1, decide_eq_false (by omega : ¬ pos < s.length)]; rfl
      · rw [decide_eq_false (by omega : ¬ s.length < pos + 1),
          decide_eq_true (by omega : pos < s.length)]
        rfl
    rwa [heq] at h

/-- C15, instance: the five strings of the example of the specification at the start of
the pass at position 1. -/
theorem C15_active_range_witness :
    (∀ s ∈ ([[98, 97], [97], [97, 98, 99], [97, 98], [98]] : List Str), s.length ≤ 3) ∧
    ValidBytes true [[98, 97], [97], [97, 98, 99], [97, 98], [98]] ∧
    ∃ (arr1 : List Str) (buckets : List (List Str)) (start : Nat),
      passStart true [[98, 97], [97], [97, 98, 99], [97, 98], [98]] ((3 : Nat) : Int) 1
        = some (arr1, buckets, (start : Int)) ∧
      start = 2 ∧ ∀ s ∈ arr1.drop start, 1 < s.length := by
  obtain ⟨arr1, buckets, start, h1, h2, _, h4, _⟩ := C15_active_range true
    [[98, 97], [97], [97, 98, 99], [97, 98], [98]] 3 1 (by decide) (by decide) (by decide)
    (by decide)
  exact ⟨by decide, by decide, arr1, buckets, start, h1, h2.trans (by decide), h4⟩

/-- C15 as stated fails in two places.  With a signed `char` and `["a\xc8", "b"]`,
lengths within `maxLen = 2`, the pass at position 1 subscripts `buckets` with `-56`, so
the pass at position 0 has no defined array or `startingIndex` to start from.  With
`maxLen = INT_MAX` the size `maxLen + 1` overflows before any pass, also on the empty
array. -/
theorem C15_signed_char_counterexample :
    (∀ s ∈ ([[97, 200], [98]] : List Str), s.length ≤ 2) ∧
    passStart true [[97, 200], [98]] 2 0 = none ∧
    passStart true [] 2147483647 0 = none := by
  decide

/-- C16 (amended): for every `maxLen` below `INT_MAX`, every array of strings with
lengths in `0..maxLen` whose bytes are usable as subscripts (any byte when plain `char`
is unsigned, the bytes `0..127` when it is signed) and every pass position `pos`, the
digit pass of `radixSort` at `pos` leaves every element at an index below
`startingIndex` unchanged, and the elements from `startingIndex` on after the pass are a
permutation of the elements that were there before the pass; the same holds for a pass
over any array whose elements from `startingIndex` on have a usable byte at `pos`.  The
call is the length-bucketing step, the passes before this one, this pass and the rest of
the loop. -/
theorem C16_pass_frame (sc : Bool) (arr : List Str) (maxLen pos : Nat)
    (hlen : ∀ s ∈ arr, s.length ≤ maxLen) (hv : ValidBytes sc arr) (hpos : pos < maxLen)
    (hmax : (maxLen : Int) < INT_MAX) :
    (∃ (arr1 : List Str) (buckets : List (List Str)) (start : Nat)
        (arr2 : List Str) (buckets2 : List (List Str)),
      passStart sc arr (maxLen : Int) pos = some (arr1, buckets, (start : Int)) ∧
      radixSortPass sc arr1 buckets (start : Int) pos = some (arr2, buckets2) ∧
      arr2.take start = arr1.take start ∧
      (∀ i : Nat, i < start → arr2[i]? = arr1[i]?) ∧
      (arr2.drop start).Perm (arr1.drop start) ∧
      arr2.length = arr1.length) ∧
    (∀ pre active : List Str,
      (∀ s ∈ active, pos < s.length ∧ (sc = true → digit pos s < 128)) →
      ∃ arr2, radixSortPass sc (pre ++ active) (List.replicate BUCKETS [])
          (pre.length : Int) pos = some (arr2, List.replicate BUCKETS []) ∧
        arr2.take pre.length = pre ∧ (arr2.drop pre.length).Perm active) ∧
    radixSort sc arr (maxLen : Int)
      = (lengthBucket arr (maxLen : Int)).bind (fun lb =>
          (passStart sc arr (maxLen : Int) pos).bind (fun p =>
            (radixSortPass sc p.1 p.2.1 p.2.2 pos).bind (fun q =>
              radixSortLoop sc lb.2 pos q.1 q.2 p.2.2))) := by
  have hgen : ∀ pre active : List Str,
      (∀ s ∈ active, pos < s.length ∧ (sc = true → digit pos s < 128)) →
      ∃ arr2, radixSortPass sc (pre ++ active) (List.replicate BUCKETS [])
          (pre.length : Int) pos = some (arr2, List.replicate BUCKETS []) ∧
        arr2.take pre.length = pre ∧ (arr2.drop pre.length).Perm active := by
    intro pre active hok
    refine ⟨_, radixSortPass_eq sc pre active pos hok, List.take_left _ _, ?_⟩
    rw [List.drop_left]
    exact stableSortBy_perm (digit pos) BUCKETS active (fun s _ => digit_lt pos s)
  refine ⟨?_, hgen, radixSort_eq_passStart_bind sc arr maxLen pos hpos⟩
  have hact := active_perm arr maxLen pos hlen hpos
  have hok : ∀ s ∈ byLength arr (pos + 1) ++ varPassesTo arr (pos + 1) maxLen [],
      pos < s.length ∧ (sc = true → digit pos s < 128) := by
    intro s hs
    have hmem := List.mem_filter.mp (hact.subset hs)
    have hl : pos < s.length := by simpa using hmem.2
    exact @digitsOk_of_valid sc [s] pos (fun t ht => by rw [List.mem_singleton.mp ht]; exact hl)
      (fun t ht => by rw [List.mem_singleton.mp ht]; exact hv s hmem.1) s
      (List.mem_singleton_self s)
  obtain ⟨arr2, hpass, htake, hdrop⟩ := hgen (stableSortBy List.length (pos + 1) arr) _ hok
  refine ⟨_, _, (stableSortBy List.length (pos + 1) arr).length, arr2, _,
    passStart_eq sc arr maxLen pos hlen hv hpos hmax, hpass, ?_, ?_, ?_, ?_⟩
  · rw [htake, List.take_left]
  · intro i hi
    have h1 : arr2[i]? = (arr2.take (stableSortBy List.length (pos + 1) arr).length)[i]? := by
      rw [List.getElem?_take, if_pos hi]
    rw [h1, htake, List.getElem?_append_left hi]
  · rw [List.drop_left]
    exact hdrop
  · have h2 : arr2 = arr2.take (stableSortBy List.length (pos + 1) arr).length
        ++ arr2.drop (stableSortBy List.length (pos + 1) arr).length :=
      (List.take_append_drop _ _).symm
    rw [h2, List.length_append, List.length_append, htake, hdrop.length_eq]

/-- C16, instance: the five strings of the example of the specification and the pass at
position 1. -/
theorem C16_pass_frame_witness :
    (∀ s ∈ ([[98, 97], [97], [97, 98, 99], [97, 98], [98]] : List Str), s.length ≤ 3) ∧
    ValidBytes true [[98, 97], [97], [97, 98, 99], [97, 98], [98]] ∧
    ∃ (arr1 : List Str) (buckets : List (List Str)) (start : Nat)
        (arr2 : List Str) (buckets2 : List (List Str)),
      passStart true [[98, 97], [97], [97, 98, 99], [97, 98], [98]] ((3 : Nat) : Int) 1
        = some (arr1, buckets, (start : Int)) ∧
      radixSortPass true arr1 buckets (start : Int) 1 = some (arr2, buckets2) ∧
      arr2.take start = arr1.take start ∧
      (arr2.drop start).Perm (arr1.drop start) := by
  obtain ⟨arr1, buckets, start, arr2, buckets2, h1, h2, h3, _, h5, _⟩ :=
    (C16_pass_frame true [[98, 97], [97], [97, 98, 99], [97, 98], [98]] 3 1
      (by decide) (by decide) (by decide) (by decide)).1
  exact ⟨by decide, by decide, arr1, buckets, start, arr2, buckets2, h1, h2, h3, h5⟩

/-- C16 as stated fails in two places.  With a signed `char` and `["\xc9"]`,
`maxLen = 1`, the pass at position 0 starts from the array `["\xc9"]` with
`startingIndex = 0` and subscripts `buckets` with `-55`: no array is left by the pass.
With `maxLen = INT_MAX` the size `maxLen + 1` overflows before any pass, also on the
empty array. -/
theorem C16_signed_char_counterexample :
    (∀ s ∈ ([[201]] : List Str), s.length ≤ 1) ∧
    passStart true [[201]] 1 0 = some ([[201]], List.replicate BUCKETS [], 0) ∧
    radixSortPass true [[201]] (List.replicate BUCKETS []) 0 0 = none ∧
    passStart true [] 2147483647 0 = none := by
  decide

/-- C17 (amended): for every string byte that is usable as a subscript (any byte
`0..255` when plain `char` is unsigned, a byte `0..127` when it is signed), the index the
code derives from the character `s[pos]` equals the byte value: it selects bucket
`buckets[s[pos]]` within the 256 buckets, and count slots `count[s[pos] + 1]` and
`count[s[pos]]` within the 257 slots. -/
theorem C17_digit_index (sc : Bool) (c : Byte) (h : sc = true → c.val < 128) :
    charToInt sc c = (c.val : Int) ∧
    vecIndex (charToInt sc c) BUCKETS = some c.val ∧ c.val < 256 ∧
    vecIndex (charToInt sc c + 1) (BUCKETS + 1) = some (c.val + 1) ∧ c.val + 1 < 257 ∧
    vecIndex (charToInt sc c) (BUCKETS + 1) = some c.val := by
  have hlt : c.val < 256 := c.isLt
  have hcast : (c.val : Int) + 1 = ((c.val + 1 : Nat) : Int) := by push_cast; rfl
  rw [charToInt_of_valid h, hcast]
  exact ⟨rfl, vecIndex_of_lt (by show c.val < 256; exact hlt), hlt,
    vecIndex_of_lt (by show c.val + 1 < 256 + 1; omega), by omega,
    vecIndex_of_lt (by show c.val < 256 + 1; omega)⟩

/-- C17, instance: the byte of the letter `a` under a signed `char`. -/
theorem C17_digit_index_witness :
    vecIndex (charToInt true 97) BUCKETS = some 97 ∧
    vecIndex (charToInt true 97 + 1) (BUCKETS + 1) = some 98 :=
  ⟨(C17_digit_index true 97 (by decide)).2.1, (C17_digit_index true 97 (by decide)).2.2.2.1⟩

/-- C17 as stated fails: with a signed `char` the byte 200 is the number `-56`, which
is not the byte value and is a subscript outside the buckets and the count slots; the
byte 255 is `-1`, so `count[s[pos] + 1]` is slot 0 and `count[s[pos]]` is out of
range. -/
theorem C17_signed_char_counterexample :
    charToInt true 200 = -56 ∧
    vecIndex (charToInt true 200) BUCKETS = none ∧
    vecIndex (charToInt true 200 + 1) (BUCKETS + 1) = none ∧
    vecIndex (charToInt true 255 + 1) (BUCKETS + 1) = some 0 ∧
    vecIndex (charToInt true 255) (BUCKETS + 1) = none := by
  decide

/-- C18 (amended): for every array of `N` strings of length exactly `L` whose bytes are
usable as subscripts (any byte when plain `char` is unsigned, the bytes `0..127` when it
is signed) and every pass of `countingRadixSort`, each output index `count[digit]` used
by the placement scan is in `0..N - 1` and no output index is used twice within the
pass: the indices of the scan are a permutation of `0..N - 1`, so the pass writes every
slot of the output buffer exactly once and never indexes out of range.  The pass at `pos`
is entered in the state that the loop cut short at `pos + 1` returns. -/
theorem C18_placement_in_bounds (sc : Bool) (arr : List Str) (L pos : Nat)
    (hlen : ∀ s ∈ arr, s.length = L) (hv : ValidBytes sc arr) (hpos : pos < L) :
    ∃ (st : Buffers) (count : List Nat) (js : List Nat),
      countingLoopTo sc (pos + 1) L ⟨arr, List.replicate arr.length [], true⟩ = some st ∧
      st.input.length = arr.length ∧ st.output.length = arr.length ∧
      countDigits sc pos st.input (List.replicate (BUCKETS + 1) 0) = some count ∧
      placeIndices sc pos st.input (prefixSums count) st.output.length = some js ∧
      (∀ j ∈ js, j < arr.length) ∧ js.Nodup ∧ js.Perm (List.range arr.length) ∧
      (place sc pos st.input (prefixSums count) st.output).map Prod.fst
        = some (writeAll st.input js st.output) ∧
      countingLoop sc L ⟨arr, List.replicate arr.length [], true⟩
        = (countingLoopTo sc (pos + 1) L ⟨arr, List.replicate arr.length [], true⟩).bind
            (countingLoop sc (pos + 1)) := by
  have hle : ∀ s ∈ arr, L ≤ s.length := fun s hs => Nat.le_of_eq (hlen s hs).symm
  obtain ⟨st, hto, hin, hout, hinlen, _⟩ := countingLoopTo_spec sc (pos + 1) L
    ⟨arr, List.replicate arr.length [], true⟩ (by simp [Buffers.input, Buffers.output])
    hle hv
  replace hin : st.input = lsdPassesTo (pos + 1) L arr := hin
  replace hout : st.output.length = arr.length := hout
  replace hinlen : st.input.length = arr.length := hinlen
  have hperm : st.input.Perm arr := by rw [hin]; exact lsdPassesTo_perm (pos + 1) L arr
  have hok : DigitsOk sc pos st.input :=
    digitsOk_of_valid (fun s hs => by rw [hlen s (hperm.subset hs)]; exact hpos)
      (validBytes_of_perm hperm hv)
  obtain ⟨count, js, hcount, hjs, _, hnd, hlt, hp⟩ := placeIndices_pass sc pos st.input hok
  rw [hinlen] at hjs hlt hp
  refine ⟨st, count, js, hto, hinlen, hout, hcount, by rw [hout]; exact hjs, hlt, hnd, hp, ?_,
    countingLoop_eq_bind sc (pos + 1) L _ hpos⟩
  rw [place_fst_eq_writeAll, hout, hjs]
  rfl

/-- C18, instance: the pass at position 0 of three strings of length 2. -/
theorem C18_placement_in_bounds_witness :
    (∀ s ∈ ([[98, 98], [97, 97], [99, 97]] : List Str), s.length = 2) ∧
    ValidBytes true [[98, 98], [97, 97], [99, 97]] ∧
    ∃ (st : Buffers) (count : List Nat) (js : List Nat),
      countingLoopTo true 1 2 ⟨[[98, 98], [97, 97], [99, 97]], List.replicate 3 [], true⟩
        = some st ∧
      countDigits true 0 st.input (List.replicate (BUCKETS + 1) 0) = some count ∧
      placeIndices true 0 st.input (prefixSums count) st.output.length = some js ∧
      js.Perm (List.range 3) := by
  obtain ⟨st, count, js, h1, _, _, h4, h5, _, _, h8, _⟩ := C18_placement_in_bounds true
    [[98, 98], [97, 97], [99, 97]] 2 0 (by decide) (by decide) (by decide)
  exact ⟨by decide, by decide, st, count, js, h1, h4, h5, h8⟩

/-- C18 as stated fails: with a signed `char` the byte 255 of `["\xff", "A"]` passes the
frequency loop as `count[0]`, and in the placement scan `count[(*in)[i][pos]]` is
`count[-1]`, a subscript out of range: no output index is defined for the string. -/
theorem C18_signed_char_counterexample :
    (∀ s ∈ ([[255], [65]] : List Str), s.length = 1) ∧
    (countDigits true 0 [[255], [65]] (List.replicate (BUCKETS + 1) 0)).isSome = true ∧
    (countDigits true 0 [[255], [65]] (List.replicate (BUCKETS + 1) 0)).bind
      (fun count => placeIndices true 0 [[255], [65]] (prefixSums count) 2) = none := by
  decide

/-- C19 (amended): for every `L` with `0 ≤ L < INT_MAX` and every array of strings that
all have length exactly `L` and whose bytes are usable as subscripts (any byte when plain
`char` is unsigned, the bytes `0..127` when it is signed), `radixSort(arr, L)` and
`radixSortA(arr, L)` both return, and leave the array in exactly the same final order. -/
theorem C19_variable_generalises_fixed (sc : Bool) (arr : List Str) (L : Nat)
    (hlen : ∀ s ∈ arr, s.length = L) (hv : ValidBytes sc arr)
    (hmax : (L : Int) < INT_MAX) :
    ∃ out, radixSort sc arr (L : Int) = some out ∧ radixSortA sc arr (L : Int) = some out :=
  ⟨referenceSort arr,
    radixSort_eq_referenceSort sc arr L (fun s hs => Nat.le_of_eq (hlen s hs)) hv hmax,
    radixSortA_eq_referenceSort sc arr L hlen hv⟩

/-- C19, instance: three strings of length 3 under a signed `char`. -/
theorem C19_variable_generalises_fixed_witness :
    (∀ s ∈ ([[100, 98, 97], [97, 97, 97], [97, 98, 99]] : List Str), s.length = 3) ∧
    ValidBytes true [[100, 98, 97], [97, 97, 97], [97, 98, 99]] ∧
    ((3 : Nat) : Int) < INT_MAX ∧
    ∃ out, radixSort true [[100, 98, 97], [97, 97, 97], [97, 98, 99]] ((3 : Nat) : Int)
        = some out ∧
      radixSortA true [[100, 98, 97], [97, 97, 97], [97, 98, 99]] ((3 : Nat) : Int)
        = some out :=
  ⟨by decide, by decide, by decide,
    C19_variable_generalises_fixed true [[100, 98, 97], [97, 97, 97], [97, 98, 99]] 3
      (by decide) (by decide) (by decide)⟩

/-- C19 as stated fails in two places.  With `L = INT_MAX` and the empty array, whose
strings all have length `L`, `radixSortA` returns the empty array while the size
`maxLen + 1` overflows in `radixSort`, which has no defined result.  With a signed `char`
and the array `["\xb4"]` of strings of length 1, both functions subscript `buckets` with
`-76` and neither has a defined result. -/
theorem C19_counterexample :
    (∀ s ∈ ([] : List Str), s.length = 2147483647) ∧
    radixSort true [] 2147483647 = none ∧
    radixSortA true [] 2147483647 = some [] ∧
    (∀ s ∈ ([[180]] : List Str), s.length = 1) ∧
    radixSort true [[180]] 1 = none ∧ radixSortA true [[180]] 1 = none := by
  refine ⟨by decide, by decide, ?_, by decide, by decide, by decide⟩
  exact radixSortA_eq_referenceSort true [] 2147483647 (fun s hs => by simp at hs)
    (fun s hs => by simp at hs)

/-- C20 (amended): for every array of `N` strings that all have a character at `pos`
whose byte is usable as a subscript (any byte when plain `char` is unsigned, a byte
`0..127` when it is signed), after the frequency count and the prefix-sum loop of a pass
and before the placement scan, for every `b` in `0..256` the slot `count[b]` equals the
number of strings whose digit at `pos` is less than `b`; in particular `count[0] = 0`,
`count[256] = N`, and `count[b]` is the output index at which the strings of digit `b`
start. -/
theorem C20_prefix_table (sc : Bool) (pos : Nat) (inp : List Str)
    (hchar : ∀ s ∈ inp, pos < s.length)
    (hv : ∀ s ∈ inp, sc = true → digit pos s < 128) :
    ∃ count, countDigits sc pos inp (List.replicate (BUCKETS + 1) 0) = some count ∧
      (prefixSums count).length = BUCKETS + 1 ∧
      (∀ b : Nat, b ≤ BUCKETS → (prefixSums count).getD b 0
        = (inp.filter (fun s => decide (digit pos s < b))).length) ∧
      (prefixSums count).getD 0 0 = 0 ∧
      (prefixSums count).getD BUCKETS 0 = inp.length ∧
      (∀ buf : List Str, buf.length = inp.length →
        ∃ out rest, countingPass sc pos inp buf = some (out, rest) ∧
          ∀ b : Nat, b < BUCKETS →
            ∀ k : Nat, k < (inp.filter (fun s => digit pos s == b)).length →
              out[(prefixSums count).getD b 0 + k]?
                = (inp.filter (fun s => digit pos s == b))[k]?) := by
  have hok : DigitsOk sc pos inp := fun s hs => ⟨hchar s hs, hv s hs⟩
  obtain ⟨htl, htv⟩ := prefixSums_tally pos inp
  refine ⟨_, countDigits_eq sc pos inp _ (by simp) hok, htl, fun b hb => ?_, ?_, ?_,
    fun buf hbuf => ⟨_, _, countingPass_eq sc pos inp buf hbuf hok, fun b hb k hk => ?_⟩⟩
  · rw [htv b hb, offset_eq_filter_lt]
  · rw [htv 0 (Nat.zero_le _), offset_zero]
  · rw [htv BUCKETS (Nat.le_refl _)]
    exact length_stableSortBy_digit pos inp
  · rw [htv b (Nat.le_of_lt hb)]
    exact getElem?_stableSortBy (digit pos) inp BUCKETS b k hb hk

/-- C20, instance: the table of the pass at position 0 over `["b", "a", "c", "a"]`:
slot 98 holds the number of strings below `b`, which is 2. -/
theorem C20_prefix_table_witness :
    (∀ s ∈ ([[98], [97], [99], [97]] : List Str), 0 < s.length) ∧
    ∃ count, countDigits true 0 [[98], [97], [99], [97]] (List.replicate (BUCKETS + 1) 0)
        = some count ∧
      (prefixSums count).getD 98 0 = 2 ∧ (prefixSums count).getD BUCKETS 0 = 4 := by
  obtain ⟨count, h1, _, h3, _, h5, _⟩ := C20_prefix_table true 0
    [[98], [97], [99], [97]] (by decide) (by decide)
  exact ⟨by decide, count, h1, (h3 98 (by decide)).trans (by decide), h5⟩

/-- C20 as stated fails: with a signed `char` the byte 255 of the one-string array
`["\xff"]` is counted in `count[-1 + 1]`, so after the two loops `count[0]` is 1 while
no string has a digit below 0. -/
theorem C20_signed_char_counterexample :
    (∀ s ∈ ([[255]] : List Str), 0 < s.length) ∧
    (countDigits true 0 [[255]] (List.replicate (BUCKETS + 1) 0)).map
      (fun count => (prefixSums count).getD 0 0) = some 1 ∧
    (([[255]] : List Str).filter (fun s => decide (digit 0 s < 0))).length = 0 := by
  decide

end RadixSort
